import Mathlib

/-!
# Train route graph (`trainManagement.cpp`)

A shallow embedding of the graph engine of `trainManagement.cpp`: the adjacency
matrix with its mutators (`addNode`, `addEdge`, `addRoute`, `deleteRoute`), the
case-insensitive name lookup `findNodeIndex`, the shortest-route query
(`displayShortestRoute`, `minDistance`, `printShortestRoute`) and the all-routes
query (`displayAllRoutes`, `dfsAllRoutes`).

Conventions of the embedding.

* A C++ `int` is a Lean `Int`; a loop counter that runs over `0 .. nodeCount-1`
  is a `Nat` taken from `List.range`.
* A `vector` is a `List`.  An access outside the vector is undefined behaviour in
  C++; here every such access makes the enclosing function return `none`.
* A function that prints returns what it prints as a value (an outcome); cities
  are reported by index, the printed name of index `i` being `nodes[i]`.
* The recursion of `dfsAllRoutes` and the parent walk of `printShortestRoute`
  take a `fuel` argument; running out of fuel is `none` as well, and the
  theorems show that `nodeCount` units of fuel are enough.
-/

namespace TrainManagement

/-! ## Vectors and the adjacency matrix -/

/-- The constant `INT_MAX` of `<climits>` for a 32-bit `int`. -/
def INT_MAX : Int := 2147483647

/-- Read `xs[i]` for an `int` index; `none` outside the vector. -/
def vecGet {α : Type} (xs : List α) (i : Int) : Option α :=
  if 0 ≤ i then xs[i.toNat]? else none

/-- Write `xs[i] = x` for an `int` index; `none` outside the vector. -/
def vecSet {α : Type} (xs : List α) (i : Int) (x : α) : Option (List α) :=
  if 0 ≤ i ∧ i.toNat < xs.length then some (xs.set i.toNat x) else none

/-- Read `adjacencyMatrix[i][j]`. -/
def readCell (m : List (List Int)) (i j : Int) : Option Int :=
  match vecGet m i with
  | some row => vecGet row j
  | none => none

/-- Write `adjacencyMatrix[i][j] = x`. -/
def writeCell (m : List (List Int)) (i j : Int) (x : Int) : Option (List (List Int)) :=
  match vecGet m i with
  | some row =>
    match vecSet row j x with
    | some row' => vecSet m i row'
    | none => none
  | none => none

/-! ## The graph -/

/-- The state of a `TrainRoute` object (`TrainGraphAdjacencyMatrix` and its
subclass add no field).  `nodes` holds the name of each `TrainNode`.  The member
`nodeCount` is written only by the constructor (to `0`) and by `addNode`
(together with `nodes.push_back`), so it always equals `nodes.size()`; the
embedding stores the vector and derives the count. -/
structure TrainRoute where
  nodes : List (List Char)
  adjacencyMatrix : List (List Int)
deriving DecidableEq

/-- The member `nodeCount`. -/
def TrainRoute.nodeCount (g : TrainRoute) : Nat := g.nodes.length

/-- The constructor argument `size`: the number of rows of the matrix. -/
def TrainRoute.capacity (g : TrainRoute) : Nat := g.adjacencyMatrix.length

/-- The constructor `TrainRoute(size)`: no node, a `size × size` matrix of zeros. -/
def create (size : Nat) : TrainRoute :=
  { nodes := [], adjacencyMatrix := List.replicate size (List.replicate size 0) }

/-- The method `addNode`: append the node and count it. -/
def addNode (g : TrainRoute) (cityName : List Char) : TrainRoute :=
  { g with nodes := g.nodes ++ [cityName] }

/-- The method `addEdge`: two unguarded writes. -/
def addEdge (g : TrainRoute) (node1Index node2Index : Int) : Option TrainRoute :=
  match writeCell g.adjacencyMatrix node1Index node2Index 1 with
  | some m1 =>
    match writeCell m1 node2Index node1Index 1 with
    | some m2 => some { g with adjacencyMatrix := m2 }
    | none => none
  | none => none

/-- What `addRoute` and `deleteRoute` print. -/
inductive RouteOutcome where
  | routeAdded (node1Index node2Index : Int)
  | routeDeleted (node1Index node2Index : Int)
  | invalidRoute
deriving DecidableEq

/-- The method `addRoute`: the range guard, then the two reads (the second
only when the first found `0`), then the two writes of `1`. -/
def addRoute (g : TrainRoute) (node1Index node2Index : Int) : Option (TrainRoute × RouteOutcome) :=
  if 0 ≤ node1Index ∧ node1Index < g.nodeCount ∧ 0 ≤ node2Index ∧ node2Index < g.nodeCount then
    match readCell g.adjacencyMatrix node1Index node2Index with
    | none => none
    | some a =>
      if a = 0 then
        match readCell g.adjacencyMatrix node2Index node1Index with
        | none => none
        | some b =>
          if b = 0 then
            match writeCell g.adjacencyMatrix node1Index node2Index 1 with
            | none => none
            | some m1 =>
              match writeCell m1 node2Index node1Index 1 with
              | none => none
              | some m2 =>
                some ({ g with adjacencyMatrix := m2 },
                  RouteOutcome.routeAdded node1Index node2Index)
          else some (g, RouteOutcome.invalidRoute)
      else some (g, RouteOutcome.invalidRoute)
  else some (g, RouteOutcome.invalidRoute)

/-- The method `deleteRoute`: the range guard, then the two reads (the second
only when the first found `1`), then the two writes of `0`. -/
def deleteRoute (g : TrainRoute) (node1Index node2Index : Int) :
    Option (TrainRoute × RouteOutcome) :=
  if 0 ≤ node1Index ∧ node1Index < g.nodeCount ∧ 0 ≤ node2Index ∧ node2Index < g.nodeCount then
    match readCell g.adjacencyMatrix node1Index node2Index with
    | none => none
    | some a =>
      if a = 1 then
        match readCell g.adjacencyMatrix node2Index node1Index with
        | none => none
        | some b =>
          if b = 1 then
            match writeCell g.adjacencyMatrix node1Index node2Index 0 with
            | none => none
            | some m1 =>
              match writeCell m1 node2Index node1Index 0 with
              | none => none
              | some m2 =>
                some ({ g with adjacencyMatrix := m2 },
                  RouteOutcome.routeDeleted node1Index node2Index)
          else some (g, RouteOutcome.invalidRoute)
      else some (g, RouteOutcome.invalidRoute)
  else some (g, RouteOutcome.invalidRoute)

/-- The states a program can reach: the constructor, then any sequence of
`addNode`, `addEdge`, `addRoute` and `deleteRoute` calls that are defined. -/
inductive Reachable : TrainRoute → Prop where
  | create (size : Nat) : Reachable (create size)
  | addNode {g : TrainRoute} (cityName : List Char) : Reachable g → Reachable (addNode g cityName)
  | addEdge {g g' : TrainRoute} (i j : Int) :
      Reachable g → addEdge g i j = some g' → Reachable g'
  | addRoute {g g' : TrainRoute} {r : RouteOutcome} (i j : Int) :
      Reachable g → addRoute g i j = some (g', r) → Reachable g'
  | deleteRoute {g g' : TrainRoute} {r : RouteOutcome} (i j : Int) :
      Reachable g → deleteRoute g i j = some (g', r) → Reachable g'

/-- The states reached when no `addEdge` or `addRoute` call names the same
index twice. -/
inductive ReachableDistinct : TrainRoute → Prop where
  | create (size : Nat) : ReachableDistinct (create size)
  | addNode {g : TrainRoute} (cityName : List Char) :
      ReachableDistinct g → ReachableDistinct (addNode g cityName)
  | addEdge {g g' : TrainRoute} (i j : Int) : i ≠ j →
      ReachableDistinct g → addEdge g i j = some g' → ReachableDistinct g'
  | addRoute {g g' : TrainRoute} {r : RouteOutcome} (i j : Int) : i ≠ j →
      ReachableDistinct g → addRoute g i j = some (g', r) → ReachableDistinct g'
  | deleteRoute {g g' : TrainRoute} {r : RouteOutcome} (i j : Int) :
      ReachableDistinct g → deleteRoute g i j = some (g', r) → ReachableDistinct g'

/-! ## Name lookup -/

/-- The function `::tolower` in the default "C" locale (the program never
changes the locale): `A .. Z` go to `a .. z`, every other character is
unchanged.  A `string` is the list of its characters. -/
def tolower (c : Char) : Char :=
  if 65 ≤ c.toNat ∧ c.toNat ≤ 90 then Char.ofNat (c.toNat + 32) else c

/-- The call `transform(s.begin(), s.end(), s.begin(), ::tolower)`. -/
def lowerString (s : List Char) : List Char := s.map tolower

/-- The loop of `findNodeIndex` from index `i` on, over the nodes not yet seen. -/
def findNodeIndexFrom (lowerNodeName : List Char) : List (List Char) → Int → Int
  | [], _ => -1
  | currentNodeName :: rest, i =>
    if lowerString currentNodeName = lowerNodeName then i
    else findNodeIndexFrom lowerNodeName rest (i + 1)

/-- The method `findNodeIndex`. -/
def findNodeIndex (g : TrainRoute) (nodeName : List Char) : Int :=
  findNodeIndexFrom (lowerString nodeName) g.nodes 0

/-! ## Shortest route -/

/-- The three local vectors of `displayShortestRoute`. -/
structure ShortestState where
  distance : List Int
  parent : List Int
  visited : List Bool
deriving DecidableEq

/-- One iteration of the loop of `minDistance`, on the pair
`(minDist, minIndex)`. -/
def minDistanceStep (distance : List Int) (visited : List Bool) (acc : Int × Int) (v : Nat) :
    Option (Int × Int) :=
  match visited[v]? with
  | none => none
  | some true => some acc
  | some false =>
    match distance[v]? with
    | none => none
    | some d => if d ≤ acc.1 then some (d, (v : Int)) else some acc

/-- The method `minDistance`. -/
def minDistance (g : TrainRoute) (distance : List Int) (visited : List Bool) : Option Int :=
  ((List.range g.nodeCount).foldlM (minDistanceStep distance visited) (INT_MAX, -1)).map Prod.snd

/-- The body of the inner loop of `displayShortestRoute` for one `v`, on the
pair `(distance, parent)`.  The conjuncts are evaluated left to right and the
first false one ends the test; the sum `distance[u] + adjacencyMatrix[u][v]` is
undefined when it leaves the range of `int`. -/
def relaxStep (g : TrainRoute) (u : Int) (visited : List Bool) (dp : List Int × List Int)
    (v : Nat) : Option (List Int × List Int) :=
  match visited[v]? with
  | none => none
  | some true => some dp
  | some false =>
    match readCell g.adjacencyMatrix u v with
    | none => none
    | some w =>
      if w = 0 then some dp
      else
        match vecGet dp.1 u with
        | none => none
        | some du =>
          if du = INT_MAX then some dp
          else if du + w < -INT_MAX - 1 ∨ INT_MAX < du + w then none
          else
            match dp.1[v]? with
            | none => none
            | some dv =>
              if du + w < dv then some (dp.1.set v (du + w), dp.2.set v u) else some dp

/-- One round of the outer loop of `displayShortestRoute`. -/
def shortestRound (g : TrainRoute) (s : ShortestState) : Option ShortestState :=
  match minDistance g s.distance s.visited with
  | none => none
  | some u =>
    match vecSet s.visited u true with
    | none => none
    | some visited =>
      match (List.range g.nodeCount).foldlM (relaxStep g u visited) (s.distance, s.parent) with
      | none => none
      | some dp => some { distance := dp.1, parent := dp.2, visited := visited }

/-- The outer loop of `displayShortestRoute`, `rounds` times. -/
def shortestRounds (g : TrainRoute) : Nat → ShortestState → Option ShortestState
  | 0, s => some s
  | rounds + 1, s =>
    match shortestRound g s with
    | none => none
    | some s' => shortestRounds g rounds s'

/-- The loop `for (int at = end; at != -1; at = parent[at]) path.push_back(at)`
of `printShortestRoute`. -/
def parentWalk (parent : List Int) : Nat → Int → Option (List Int)
  | 0, at_ => if at_ = -1 then some [] else none
  | fuel + 1, at_ =>
    if at_ = -1 then some []
    else
      match vecGet parent at_ with
      | none => none
      | some next =>
        match parentWalk parent fuel next with
        | none => none
        | some path => some (at_ :: path)

/-- What `displayShortestRoute` prints: the cities of the route from first to
last printed, or one of the two messages. -/
inductive ShortestOutcome where
  | invalidLocation
  | noRoute (start end_ : Int)
  | route (cities : List Int)
deriving DecidableEq

/-- The method `printShortestRoute`; the route is printed from the last element
of `path` down to the first. -/
def printShortestRoute (fuel : Nat) (start end_ : Int) (parent : List Int) :
    Option ShortestOutcome :=
  match vecGet parent end_ with
  | none => none
  | some p =>
    if p = -1 then some (ShortestOutcome.noRoute start end_)
    else
      match parentWalk parent fuel end_ with
      | none => none
      | some path => some (ShortestOutcome.route path.reverse)

/-- The method `displayShortestRoute`.  The outer loop runs while
`count < nodeCount - 1`, that is `nodeCount - 1` times, and not at all when
`nodeCount` is zero. -/
def displayShortestRoute (g : TrainRoute) (fuel : Nat) (startLocation endLocation : List Char) :
    Option ShortestOutcome :=
  let startIndex := findNodeIndex g startLocation
  let endIndex := findNodeIndex g endLocation
  if startIndex ≠ -1 ∧ endIndex ≠ -1 then
    match vecSet (List.replicate g.nodeCount INT_MAX) startIndex 0 with
    | none => none
    | some distance =>
      match shortestRounds g (g.nodeCount - 1)
          { distance := distance, parent := List.replicate g.nodeCount (-1),
            visited := List.replicate g.nodeCount false } with
      | none => none
      | some s => printShortestRoute fuel startIndex endIndex s.parent
  else some ShortestOutcome.invalidLocation

/-! ## All routes -/

/-- The two vectors that `dfsAllRoutes` receives by reference, and the routes
printed so far. -/
structure RoutesState where
  visited : List Int
  path : List Nat
  routes : List (List Nat)
deriving DecidableEq

/-- The body of the neighbour loop of `dfsAllRoutes` for one `neighbor`;
`recurse` is the recursive call `dfsAllRoutes(neighbor, targetNode, visited, path)`.
The matrix is read only when `visited[neighbor]` is zero. -/
def neighborStep (g : TrainRoute) (recurse : Nat → RoutesState → Option RoutesState)
    (currentNode : Nat) (st : RoutesState) (neighbor : Nat) : Option RoutesState :=
  match st.visited[neighbor]? with
  | none => none
  | some seen =>
    if seen = 0 then
      match readCell g.adjacencyMatrix currentNode neighbor with
      | none => none
      | some a => if a = 1 then recurse neighbor st else some st
    else some st

/-- The method `dfsAllRoutes`. -/
def dfsAllRoutes (g : TrainRoute) : Nat → Nat → Nat → RoutesState → Option RoutesState
  | 0, _, _, _ => none
  | fuel + 1, currentNode, targetNode, s =>
    if currentNode < s.visited.length then
      let s1 : RoutesState :=
        { s with visited := s.visited.set currentNode 1, path := s.path ++ [currentNode] }
      let inner : Option RoutesState :=
        if currentNode = targetNode then some { s1 with routes := s1.routes ++ [s1.path] }
        else
          (List.range g.nodeCount).foldlM
            (neighborStep g (fun neighbor st => dfsAllRoutes g fuel neighbor targetNode st)
              currentNode)
            s1
      match inner with
      | none => none
      | some s2 =>
        if currentNode < s2.visited.length ∧ s2.path ≠ [] then
          some { s2 with visited := s2.visited.set currentNode 0, path := s2.path.dropLast }
        else none
    else none

/-- What `displayAllRoutes` prints: the routes in the order printed, or the
message. -/
inductive AllRoutesOutcome where
  | invalidLocation
  | routes (found : List (List Nat))
deriving DecidableEq

/-- The method `displayAllRoutes`. -/
def displayAllRoutes (g : TrainRoute) (fuel : Nat) (startLocation endLocation : List Char) :
    Option AllRoutesOutcome :=
  let startIndex := findNodeIndex g startLocation
  let endIndex := findNodeIndex g endLocation
  if startIndex ≠ -1 ∧ endIndex ≠ -1 then
    match dfsAllRoutes g fuel startIndex.toNat endIndex.toNat
        { visited := List.replicate g.nodeCount 0, path := [], routes := [] } with
    | none => none
    | some s => some (AllRoutesOutcome.routes s.routes)
  else some AllRoutesOutcome.invalidLocation

/-! ## The properties the queries are checked against -/

/-- Every cell `(i, j)` with `i, j < nodeCount` exists: the city count is within
the number of rows, and within the length of every row. -/
def WithinCapacity (g : TrainRoute) : Prop :=
  g.nodeCount ≤ g.adjacencyMatrix.length ∧ ∀ row ∈ g.adjacencyMatrix, g.nodeCount ≤ row.length

instance (g : TrainRoute) : Decidable (WithinCapacity g) :=
  inferInstanceAs (Decidable (g.nodeCount ≤ g.adjacencyMatrix.length ∧
    ∀ row ∈ g.adjacencyMatrix, g.nodeCount ≤ row.length))

/-- The adjacency relation on city indices: the cell `(a, b)` holds `1`. -/
def Adjacent (g : TrainRoute) (a b : Nat) : Prop :=
  readCell g.adjacencyMatrix a b = some 1

instance (g : TrainRoute) (a b : Nat) : Decidable (Adjacent g a b) :=
  inferInstanceAs (Decidable (readCell g.adjacencyMatrix a b = some 1))

/-- A simple path from `start` to `end_`: a sequence of city indices that begins
with `start`, ends with `end_`, repeats no city and steps along adjacent
cities. -/
def SimplePath (g : TrainRoute) (start end_ : Nat) (p : List Nat) : Prop :=
  p.head? = some start ∧ p.getLast? = some end_ ∧ p.Nodup ∧ List.Chain' (Adjacent g) p ∧
    ∀ x ∈ p, x < g.nodeCount

/-- What a call `dfsAllRoutes(cur, tgt, visited, path)` is expected to do on the
vectors `vis` and `path` and the routes printed so far: restore both vectors
(with `visited[cur]` cleared) and print, each once, the simple paths from `cur`
to `tgt` through unmarked cities, each prefixed by `path`. -/
def DfsPost (g : TrainRoute) (tgt cur : Nat) (vis : List Int) (path : List Nat)
    (routes : List (List Nat)) (res : Option RoutesState) : Prop :=
  ∃ new : List (List Nat),
    res = some { visited := vis.set cur 0, path := path,
                 routes := routes ++ new.map (fun p => path ++ p) } ∧
    new.Nodup ∧
    ∀ p, p ∈ new ↔ SimplePath g cur tgt p ∧ ∀ x ∈ p, x ≠ cur → vis[x]? = some 0

/-- The triangle of three cities `A`, `B`, `C`. -/
def triangle : TrainRoute :=
  { nodes := [['A'], ['B'], ['C']], adjacencyMatrix := [[0, 1, 1], [1, 0, 1], [1, 1, 0]] }

/-- Every cell of the matrix holds `0` or `1`, the only values the program
writes. -/
def ZeroOne (g : TrainRoute) : Prop :=
  ∀ row ∈ g.adjacencyMatrix, ∀ x ∈ row, x = 0 ∨ x = 1

instance (g : TrainRoute) : Decidable (ZeroOne g) :=
  inferInstanceAs (Decidable (∀ row ∈ g.adjacencyMatrix, ∀ x ∈ row, x = 0 ∨ x = 1))

/-- A walk from `start` to `end_`: a sequence of city indices that begins with
`start`, ends with `end_` and steps along adjacent cities (cities may
repeat). -/
def Walk (g : TrainRoute) (start end_ : Nat) (w : List Nat) : Prop :=
  w.head? = some start ∧ w.getLast? = some end_ ∧ List.Chain' (Adjacent g) w ∧
    ∀ x ∈ w, x < g.nodeCount

/-- The three cities `A - B - C` in a line, in a matrix of capacity four. -/
def line : TrainRoute :=
  { nodes := [['A'], ['B'], ['C']],
    adjacencyMatrix := [[0, 1, 0, 0], [1, 0, 1, 0], [0, 1, 0, 0], [0, 0, 0, 0]] }

/-- Two cities `A - B` joined by one route, as `addEdge(0, 1)` leaves them. -/
def pair : TrainRoute :=
  { nodes := [['A'], ['B']], adjacencyMatrix := [[0, 1], [1, 0]] }

/-- The graph `line` after `addRoute(0, 2)`. -/
def triangleInLine : TrainRoute :=
  { nodes := [['A'], ['B'], ['C']],
    adjacencyMatrix := [[0, 1, 1, 0], [1, 0, 1, 0], [1, 1, 0, 0], [0, 0, 0, 0]] }

/-- The entry `distance[v]` (`INT_MAX` outside the vector). -/
def dAt (distance : List Int) (v : Nat) : Int := (distance[v]?).getD INT_MAX

/-- The entry `parent[v]` (`-1` outside the vector). -/
def pAt (parent : List Int) (v : Nat) : Int := (parent[v]?).getD (-1)

/-- The entry `visited[v]` (`true` outside the vector). -/
def vAt (visited : List Bool) (v : Nat) : Bool := (visited[v]?).getD true

/-- The test of the inner loop of `displayShortestRoute` for the selected node `m` and the
node `v`, on the vectors before the loop. -/
def Relaxes (g : TrainRoute) (m : Nat) (visited : List Bool) (distance : List Int) (v : Nat) :
    Prop :=
  vAt visited v = false ∧ Adjacent g m v ∧ dAt distance m ≠ INT_MAX ∧
    dAt distance m + 1 < dAt distance v

/-- The loop invariant of `displayShortestRoute` after `k` rounds, for the
search from `start`. -/
structure ShortestInv (g : TrainRoute) (start k : Nat) (s : ShortestState) : Prop where
  len_d : s.distance.length = g.nodeCount
  len_p : s.parent.length = g.nodeCount
  len_v : s.visited.length = g.nodeCount
  count : s.visited.count true = k
  d_start : dAt s.distance start = 0
  p_start : pAt s.parent start = -1
  d_range : ∀ v < g.nodeCount, 0 ≤ dAt s.distance v ∧ dAt s.distance v ≤ INT_MAX
  parent_ok : ∀ v < g.nodeCount, v ≠ start →
    (dAt s.distance v = INT_MAX ∧ pAt s.parent v = -1) ∨
    ∃ u < g.nodeCount, pAt s.parent v = u ∧ vAt s.visited u = true ∧ Adjacent g u v ∧
      dAt s.distance v = dAt s.distance u + 1 ∧ dAt s.distance v ≠ INT_MAX
  relaxed : ∀ u < g.nodeCount, ∀ v < g.nodeCount, vAt s.visited u = true → Adjacent g u v →
    dAt s.distance u ≠ INT_MAX → dAt s.distance v ≤ dAt s.distance u + 1
  ordered : ∀ u < g.nodeCount, ∀ v < g.nodeCount, vAt s.visited u = true →
    vAt s.visited v = false → dAt s.distance u ≤ dAt s.distance v
  bounded : ∀ v < g.nodeCount, dAt s.distance v ≠ INT_MAX →
    dAt s.distance v ≤ k ∧ (vAt s.visited v = true → dAt s.distance v < k)

/-- The states reached from `TrainRoute(size)` by defined calls of `addNode`,
`addEdge`, `addRoute` and `deleteRoute`, `added` of them being calls of
`addNode`. -/
inductive ReachableFrom (size : Nat) : Nat → TrainRoute → Prop where
  | create : ReachableFrom size 0 (create size)
  | addNode {g : TrainRoute} {added : Nat} (cityName : List Char) :
      ReachableFrom size added g → ReachableFrom size (added + 1) (addNode g cityName)
  | addEdge {g g' : TrainRoute} {added : Nat} (i j : Int) :
      ReachableFrom size added g → addEdge g i j = some g' → ReachableFrom size added g'
  | addRoute {g g' : TrainRoute} {added : Nat} {r : RouteOutcome} (i j : Int) :
      ReachableFrom size added g → addRoute g i j = some (g', r) → ReachableFrom size added g'
  | deleteRoute {g g' : TrainRoute} {added : Nat} {r : RouteOutcome} (i j : Int) :
      ReachableFrom size added g → deleteRoute g i j = some (g', r) →
      ReachableFrom size added g'

/-- The vectors of `displayShortestRoute` before the first round of the search
from `start`. -/
def shortestInit (g : TrainRoute) (start : Nat) : ShortestState :=
  { distance := (List.replicate g.nodeCount INT_MAX).set start 0,
    parent := List.replicate g.nodeCount (-1),
    visited := List.replicate g.nodeCount false }

/-- The graph `line` with a fourth city `D` that no route reaches. -/
def island : TrainRoute :=
  { nodes := [['A'], ['B'], ['C'], ['D']],
    adjacencyMatrix := [[0, 1, 0, 0], [1, 0, 1, 0], [0, 1, 0, 0], [0, 0, 0, 0]] }

/-- Two cities in a matrix of capacity one: the state after `TrainRoute(1)`,
`addNode("A")`, `addNode("B")`. -/
def crowded : TrainRoute :=
  { nodes := [['A'], ['B']], adjacencyMatrix := [[0]] }

/-- Three cities in a matrix of capacity two with the route `A - B`: the state
after `TrainRoute(2)`, `addNode("A")`, `addNode("B")`, `addEdge(0, 1)`,
`addNode("C")`. -/
def crowdedEdge : TrainRoute :=
  { nodes := [['A'], ['B'], ['C']], adjacencyMatrix := [[0, 1], [1, 0]] }

/-! ## Vectors and cells -/

theorem vecGet_natCast {α : Type} (xs : List α) (k : Nat) : vecGet xs (k : Int) = xs[k]? := by
  simp [vecGet]

theorem vecGet_eq_some_iff {α : Type} (xs : List α) (i : Int) (x : α) :
    vecGet xs i = some x ↔ ∃ k : Nat, i = k ∧ xs[k]? = some x := by
  unfold vecGet
  constructor
  · intro h
    split at h
    · rename_i h0
      exact ⟨i.toNat, (Int.toNat_of_nonneg h0).symm, h⟩
    · cases h
  · rintro ⟨k, rfl, h⟩
    simpa using h

theorem vecSet_eq_some_iff {α : Type} (xs ys : List α) (i : Int) (x : α) :
    vecSet xs i x = some ys ↔ ∃ k : Nat, i = k ∧ k < xs.length ∧ ys = xs.set k x := by
  unfold vecSet
  constructor
  · intro h
    split at h
    · rename_i h0
      refine ⟨i.toNat, (Int.toNat_of_nonneg h0.1).symm, h0.2, ?_⟩
      simpa using h.symm
    · cases h
  · rintro ⟨k, rfl, hk, rfl⟩
    simp [hk]

theorem vecGet_vecSet {α : Type} {xs ys : List α} {i : Int} {x : α} (h : vecSet xs i x = some ys)
    (k : Int) : vecGet ys k = if k = i then some x else vecGet xs k := by
  obtain ⟨n, rfl, hn, rfl⟩ := (vecSet_eq_some_iff _ _ _ _).1 h
  unfold vecGet
  by_cases hk : 0 ≤ k
  · obtain ⟨m, rfl⟩ := Int.eq_ofNat_of_zero_le hk
    simp only [Int.toNat_ofNat, Nat.cast_nonneg, if_true, Nat.cast_inj]
    rw [List.getElem?_set]
    by_cases hmn : m = n
    · subst hmn; simp [hn]
    · have : ¬ n = m := fun h => hmn h.symm
      simp [hmn, this]
  · have : k ≠ (n : Int) := by omega
    simp [hk, this]

theorem readCell_writeCell {m m' : List (List Int)} {i j x : Int}
    (h : writeCell m i j x = some m') (a b : Int) :
    readCell m' a b = if a = i ∧ b = j then some x else readCell m a b := by
  unfold writeCell at h
  cases hrow : vecGet m i with
  | none => simp [hrow] at h
  | some row =>
    simp only [hrow] at h
    cases hrow' : vecSet row j x with
    | none => simp [hrow'] at h
    | some row' =>
      simp only [hrow'] at h
      unfold readCell
      rw [vecGet_vecSet h a]
      by_cases ha : a = i
      · subst ha
        simp only [if_true, true_and, hrow]
        exact vecGet_vecSet hrow' b
      · simp [ha]

theorem writeCell_isSome_of_readCell {m : List (List Int)} {i j v : Int}
    (h : readCell m i j = some v) (x : Int) : ∃ m', writeCell m i j x = some m' := by
  unfold readCell at h
  unfold writeCell
  cases hrow : vecGet m i with
  | none => simp [hrow] at h
  | some row =>
    simp only [hrow] at h
    obtain ⟨k, rfl, hk⟩ := (vecGet_eq_some_iff _ _ _).1 h
    obtain ⟨n, rfl, hn⟩ := (vecGet_eq_some_iff _ _ _).1 hrow
    have hk' : k < row.length := (List.getElem?_eq_some_iff.1 hk).1
    have hn' : n < m.length := (List.getElem?_eq_some_iff.1 hn).1
    simp [vecSet, hk', hn']

/-! ## Adding and deleting a route -/

/-- A pair of successful mirrored writes changes exactly the two mirrored cells. -/
theorem readCell_writePair {m m1 m2 : List (List Int)} {i j x : Int}
    (h1 : writeCell m i j x = some m1) (h2 : writeCell m1 j i x = some m2) (a b : Int) :
    readCell m2 a b =
      if (a = i ∧ b = j) ∨ (a = j ∧ b = i) then some x else readCell m a b := by
  rw [readCell_writeCell h2, readCell_writeCell h1]
  by_cases h : a = j ∧ b = i
  · simp [h]
  · simp [h]

theorem writePair_isSome {m : List (List Int)} {i j v w : Int}
    (hij : readCell m i j = some v) (hji : readCell m j i = some w) (x : Int) :
    ∃ m1 m2, writeCell m i j x = some m1 ∧ writeCell m1 j i x = some m2 := by
  obtain ⟨m1, h1⟩ := writeCell_isSome_of_readCell hij x
  have : ∃ w', readCell m1 j i = some w' := by
    rw [readCell_writeCell h1]
    by_cases h : j = i ∧ i = j
    · exact ⟨x, by rw [if_pos h]⟩
    · exact ⟨w, by rw [if_neg h, hji]⟩
  obtain ⟨w', hw'⟩ := this
  obtain ⟨m2, h2⟩ := writeCell_isSome_of_readCell hw' x
  exact ⟨m1, m2, h1, h2⟩

theorem addRoute_success {g : TrainRoute} {i j : Int}
    (hi : 0 ≤ i ∧ i < g.nodeCount) (hj : 0 ≤ j ∧ j < g.nodeCount)
    (hij : readCell g.adjacencyMatrix i j = some 0)
    (hji : readCell g.adjacencyMatrix j i = some 0) :
    ∃ m1 m2, writeCell g.adjacencyMatrix i j 1 = some m1 ∧ writeCell m1 j i 1 = some m2 ∧
      addRoute g i j = some ({ g with adjacencyMatrix := m2 }, RouteOutcome.routeAdded i j) := by
  obtain ⟨m1, m2, h1, h2⟩ := writePair_isSome hij hji 1
  refine ⟨m1, m2, h1, h2, ?_⟩
  simp [addRoute, hi.1, hi.2, hj.1, hj.2, hij, hji, h1, h2]

theorem deleteRoute_success {g : TrainRoute} {i j : Int}
    (hi : 0 ≤ i ∧ i < g.nodeCount) (hj : 0 ≤ j ∧ j < g.nodeCount)
    (hij : readCell g.adjacencyMatrix i j = some 1)
    (hji : readCell g.adjacencyMatrix j i = some 1) :
    ∃ m1 m2, writeCell g.adjacencyMatrix i j 0 = some m1 ∧ writeCell m1 j i 0 = some m2 ∧
      deleteRoute g i j = some ({ g with adjacencyMatrix := m2 }, RouteOutcome.routeDeleted i j) := by
  obtain ⟨m1, m2, h1, h2⟩ := writePair_isSome hij hji 0
  refine ⟨m1, m2, h1, h2, ?_⟩
  simp [deleteRoute, hi.1, hi.2, hj.1, hj.2, hij, hji, h1, h2]

/-- The possible results of `addRoute`. -/
theorem addRoute_cases {g g' : TrainRoute} {i j : Int} {r : RouteOutcome}
    (h : addRoute g i j = some (g', r)) :
    (g' = g ∧ r = RouteOutcome.invalidRoute) ∨
    (∃ m1 m2, writeCell g.adjacencyMatrix i j 1 = some m1 ∧ writeCell m1 j i 1 = some m2 ∧
      readCell g.adjacencyMatrix i j = some 0 ∧ readCell g.adjacencyMatrix j i = some 0 ∧
      (0 ≤ i ∧ i < g.nodeCount) ∧ (0 ≤ j ∧ j < g.nodeCount) ∧
      g' = { g with adjacencyMatrix := m2 } ∧ r = RouteOutcome.routeAdded i j) := by
  unfold addRoute at h
  split at h
  · rename_i hg
    split at h
    · cases h
    · rename_i a ha
      split at h
      · rename_i ha0
        subst ha0
        split at h
        · cases h
        · rename_i b hb
          split at h
          · rename_i hb0
            subst hb0
            split at h
            · cases h
            · rename_i m1 h1
              split at h
              · cases h
              · rename_i m2 h2
                simp only [Option.some.injEq, Prod.mk.injEq] at h
                exact Or.inr ⟨m1, m2, h1, h2, ha, hb, ⟨hg.1, hg.2.1⟩, ⟨hg.2.2.1, hg.2.2.2⟩,
                  h.1.symm, h.2.symm⟩
          · simp only [Option.some.injEq, Prod.mk.injEq] at h
            exact Or.inl ⟨h.1.symm, h.2.symm⟩
      · simp only [Option.some.injEq, Prod.mk.injEq] at h
        exact Or.inl ⟨h.1.symm, h.2.symm⟩
  · simp only [Option.some.injEq, Prod.mk.injEq] at h
    exact Or.inl ⟨h.1.symm, h.2.symm⟩

/-- The possible results of `deleteRoute`. -/
theorem deleteRoute_cases {g g' : TrainRoute} {i j : Int} {r : RouteOutcome}
    (h : deleteRoute g i j = some (g', r)) :
    (g' = g ∧ r = RouteOutcome.invalidRoute) ∨
    (∃ m1 m2, writeCell g.adjacencyMatrix i j 0 = some m1 ∧ writeCell m1 j i 0 = some m2 ∧
      readCell g.adjacencyMatrix i j = some 1 ∧ readCell g.adjacencyMatrix j i = some 1 ∧
      (0 ≤ i ∧ i < g.nodeCount) ∧ (0 ≤ j ∧ j < g.nodeCount) ∧
      g' = { g with adjacencyMatrix := m2 } ∧ r = RouteOutcome.routeDeleted i j) := by
  unfold deleteRoute at h
  split at h
  · rename_i hg
    split at h
    · cases h
    · rename_i a ha
      split at h
      · rename_i ha0
        subst ha0
        split at h
        · cases h
        · rename_i b hb
          split at h
          · rename_i hb0
            subst hb0
            split at h
            · cases h
            · rename_i m1 h1
              split at h
              · cases h
              · rename_i m2 h2
                simp only [Option.some.injEq, Prod.mk.injEq] at h
                exact Or.inr ⟨m1, m2, h1, h2, ha, hb, ⟨hg.1, hg.2.1⟩, ⟨hg.2.2.1, hg.2.2.2⟩,
                  h.1.symm, h.2.symm⟩
          · simp only [Option.some.injEq, Prod.mk.injEq] at h
            exact Or.inl ⟨h.1.symm, h.2.symm⟩
      · simp only [Option.some.injEq, Prod.mk.injEq] at h
        exact Or.inl ⟨h.1.symm, h.2.symm⟩
  · simp only [Option.some.injEq, Prod.mk.injEq] at h
    exact Or.inl ⟨h.1.symm, h.2.symm⟩

theorem addRoute_invalid_of_set {g : TrainRoute} {i j : Int}
    (hij : readCell g.adjacencyMatrix i j = some 1) :
    addRoute g i j = some (g, RouteOutcome.invalidRoute) := by
  unfold addRoute
  split
  · simp [hij]
  · rfl

theorem deleteRoute_invalid_of_unset {g : TrainRoute} {i j : Int}
    (hij : readCell g.adjacencyMatrix i j = some 0) :
    deleteRoute g i j = some (g, RouteOutcome.invalidRoute) := by
  unfold deleteRoute
  split
  · simp [hij]
  · rfl

/-- C4: for valid indices `i`, `j` whose two cells read `0`, `addRoute(i, j)` succeeds, afterwards
both cells read `1`, and a second `addRoute(i, j)` reports the invalid route and returns the
state as it was. -/
theorem addRoute_sets_both_and_repeat_fails (g : TrainRoute) (i j : Int)
    (hi : 0 ≤ i ∧ i < g.nodeCount) (hj : 0 ≤ j ∧ j < g.nodeCount)
    (hij : readCell g.adjacencyMatrix i j = some 0)
    (hji : readCell g.adjacencyMatrix j i = some 0) :
    ∃ g', addRoute g i j = some (g', RouteOutcome.routeAdded i j) ∧
      g'.nodes = g.nodes ∧
      readCell g'.adjacencyMatrix i j = some 1 ∧ readCell g'.adjacencyMatrix j i = some 1 ∧
      addRoute g' i j = some (g', RouteOutcome.invalidRoute) := by
  obtain ⟨m1, m2, h1, h2, h⟩ := addRoute_success hi hj hij hji
  have hr : readCell m2 i j = some 1 := by rw [readCell_writePair h1 h2]; simp
  have hr' : readCell m2 j i = some 1 := by rw [readCell_writePair h1 h2]; simp
  exact ⟨_, h, rfl, hr, hr', addRoute_invalid_of_set hr⟩

/-- C5: for valid indices `i`, `j` whose two cells read `1`, `deleteRoute(i, j)` succeeds,
afterwards both cells read `0`, and a second `deleteRoute(i, j)` reports the invalid route and
returns the state as it was. -/
theorem deleteRoute_clears_both_and_repeat_fails (g : TrainRoute) (i j : Int)
    (hi : 0 ≤ i ∧ i < g.nodeCount) (hj : 0 ≤ j ∧ j < g.nodeCount)
    (hij : readCell g.adjacencyMatrix i j = some 1)
    (hji : readCell g.adjacencyMatrix j i = some 1) :
    ∃ g', deleteRoute g i j = some (g', RouteOutcome.routeDeleted i j) ∧
      g'.nodes = g.nodes ∧
      readCell g'.adjacencyMatrix i j = some 0 ∧ readCell g'.adjacencyMatrix j i = some 0 ∧
      deleteRoute g' i j = some (g', RouteOutcome.invalidRoute) := by
  obtain ⟨m1, m2, h1, h2, h⟩ := deleteRoute_success hi hj hij hji
  have hr : readCell m2 i j = some 0 := by rw [readCell_writePair h1 h2]; simp
  have hr' : readCell m2 j i = some 0 := by rw [readCell_writePair h1 h2]; simp
  exact ⟨_, h, rfl, hr, hr', deleteRoute_invalid_of_unset hr⟩

/-- C6: when `addRoute(i, j)` succeeds, the `deleteRoute(i, j)` that follows succeeds too, the
cities are untouched and every cell of the matrix reads as it did before the add. -/
theorem addRoute_deleteRoute_roundtrip (g g1 : TrainRoute) (i j : Int)
    (hadd : addRoute g i j = some (g1, RouteOutcome.routeAdded i j)) :
    ∃ g2, deleteRoute g1 i j = some (g2, RouteOutcome.routeDeleted i j) ∧
      g2.nodes = g.nodes ∧
      ∀ a b : Int, readCell g2.adjacencyMatrix a b = readCell g.adjacencyMatrix a b := by
  rcases addRoute_cases hadd with ⟨_, h⟩ | ⟨m1, m2, h1, h2, hij, hji, hi, hj, rfl, _⟩
  · cases h
  · have hr : readCell m2 i j = some 1 := by rw [readCell_writePair h1 h2]; simp
    have hr' : readCell m2 j i = some 1 := by rw [readCell_writePair h1 h2]; simp
    obtain ⟨m3, m4, h3, h4, h⟩ :=
      deleteRoute_success (g := { g with adjacencyMatrix := m2 }) hi hj hr hr'
    refine ⟨_, h, rfl, ?_⟩
    intro a b
    show readCell m4 a b = _
    rw [readCell_writePair h3 h4, readCell_writePair h1 h2]
    by_cases hab : (a = i ∧ b = j) ∨ (a = j ∧ b = i)
    · rw [if_pos hab]
      rcases hab with ⟨rfl, rfl⟩ | ⟨rfl, rfl⟩
      · exact hij.symm
      · exact hji.symm
    · simp [hab]

/-! ## Invariants of the reachable states -/

theorem readCell_create (size : Nat) (i j : Int) :
    readCell (create size).adjacencyMatrix i j =
      if 0 ≤ i ∧ i < size ∧ 0 ≤ j ∧ j < size then some 0 else none := by
  unfold readCell create vecGet
  by_cases hi : 0 ≤ i
  · obtain ⟨a, rfl⟩ := Int.eq_ofNat_of_zero_le hi
    by_cases ha : a < size
    · by_cases hj : 0 ≤ j
      · obtain ⟨b, rfl⟩ := Int.eq_ofNat_of_zero_le hj
        by_cases hb : b < size
        · simp [ha, hb, List.getElem?_replicate]
        · simp [ha, hb, List.getElem?_replicate]
      · simp [ha, hj, List.getElem?_replicate]
    · simp [ha, List.getElem?_replicate]
  · simp [hi]

/-- The possible results of `addEdge`. -/
theorem addEdge_cases {g g' : TrainRoute} {i j : Int} (h : addEdge g i j = some g') :
    ∃ m1 m2, writeCell g.adjacencyMatrix i j 1 = some m1 ∧ writeCell m1 j i 1 = some m2 ∧
      g' = { g with adjacencyMatrix := m2 } := by
  unfold addEdge at h
  split at h
  · rename_i m1 h1
    split at h
    · rename_i m2 h2
      simp only [Option.some.injEq] at h
      exact ⟨m1, m2, h1, h2, h.symm⟩
    · cases h
  · cases h

theorem symmetric_writePair {m m1 m2 : List (List Int)} {i j x : Int}
    (h1 : writeCell m i j x = some m1) (h2 : writeCell m1 j i x = some m2)
    (hs : ∀ a b : Int, readCell m a b = readCell m b a) (a b : Int) :
    readCell m2 a b = readCell m2 b a := by
  rw [readCell_writePair h1 h2, readCell_writePair h1 h2, hs a b]
  by_cases hab : (a = i ∧ b = j) ∨ (a = j ∧ b = i)
  · have hba : (b = i ∧ a = j) ∨ (b = j ∧ a = i) := by tauto
    rw [if_pos hab, if_pos hba]
  · have hba : ¬ ((b = i ∧ a = j) ∨ (b = j ∧ a = i)) := by tauto
    rw [if_neg hab, if_neg hba]

/-- C7: in every state reached from the constructor by `addNode`, `addEdge`, `addRoute` and
`deleteRoute`, the cell `(i, j)` of the matrix reads the same as the cell `(j, i)`. -/
theorem reachable_adjacency_symmetric (g : TrainRoute) (hg : Reachable g) (i j : Int) :
    readCell g.adjacencyMatrix i j = readCell g.adjacencyMatrix j i := by
  induction hg generalizing i j with
  | create size =>
    rw [readCell_create, readCell_create]
    by_cases h : 0 ≤ i ∧ i < size ∧ 0 ≤ j ∧ j < size
    · have h' : 0 ≤ j ∧ j < size ∧ 0 ≤ i ∧ i < size := by tauto
      rw [if_pos h, if_pos h']
    · have h' : ¬ (0 ≤ j ∧ j < size ∧ 0 ≤ i ∧ i < size) := by tauto
      rw [if_neg h, if_neg h']
  | addNode cityName _ ih => exact ih i j
  | addEdge a b _ h ih =>
    obtain ⟨m1, m2, h1, h2, rfl⟩ := addEdge_cases h
    exact symmetric_writePair h1 h2 ih i j
  | addRoute a b _ h ih =>
    rcases addRoute_cases h with ⟨rfl, _⟩ | ⟨m1, m2, h1, h2, _, _, _, _, rfl, _⟩
    · exact ih i j
    · exact symmetric_writePair h1 h2 ih i j
  | deleteRoute a b _ h ih =>
    rcases deleteRoute_cases h with ⟨rfl, _⟩ | ⟨m1, m2, h1, h2, _, _, _, _, rfl, _⟩
    · exact ih i j
    · exact symmetric_writePair h1 h2 ih i j

/-- C8 fails on the code: one city, then `addRoute(0, 0)`, is a reachable state whose
cell `(0, 0)` reads `1`. -/
theorem addRoute_same_index_sets_diagonal :
    addRoute (addNode (create 1) ['A']) 0 0 =
        some ({ nodes := [['A']], adjacencyMatrix := [[1]] }, RouteOutcome.routeAdded 0 0) ∧
      Reachable { nodes := [['A']], adjacencyMatrix := [[1]] } ∧
      readCell (TrainRoute.mk [['A']] [[1]]).adjacencyMatrix 0 0 = some 1 := by
  have h : addRoute (addNode (create 1) ['A']) 0 0 =
      some ({ nodes := [['A']], adjacencyMatrix := [[1]] }, RouteOutcome.routeAdded 0 0) := by
    decide
  exact ⟨h, Reachable.addRoute 0 0 (Reachable.addNode _ (Reachable.create 1)) h, by decide⟩

theorem diagonal_writePair {m m1 m2 : List (List Int)} {i j x : Int} (hne : i ≠ j)
    (h1 : writeCell m i j x = some m1) (h2 : writeCell m1 j i x = some m2) (a : Int) :
    readCell m2 a a = readCell m a a := by
  rw [readCell_writePair h1 h2]
  have : ¬ ((a = i ∧ a = j) ∨ (a = j ∧ a = i)) := by
    rintro (⟨h, h'⟩ | ⟨h, h'⟩) <;> exact hne (by rw [← h, ← h'])
  rw [if_neg this]

/-- In every state reached with calls whose two indices differ, a diagonal cell holds `0`. -/
theorem reachableDistinct_diagonal_zero (g : TrainRoute) (hg : ReachableDistinct g) (i v : Int)
    (hv : readCell g.adjacencyMatrix i i = some v) : v = 0 := by
  induction hg generalizing v with
  | create size =>
    rw [readCell_create] at hv
    split at hv
    · simpa using hv.symm
    · cases hv
  | addNode cityName _ ih => exact ih v hv
  | addEdge a b hne _ h ih =>
    obtain ⟨m1, m2, h1, h2, rfl⟩ := addEdge_cases h
    exact ih v (by rw [← diagonal_writePair hne h1 h2]; exact hv)
  | addRoute a b hne _ h ih =>
    rcases addRoute_cases h with ⟨rfl, _⟩ | ⟨m1, m2, h1, h2, _, _, _, _, rfl, _⟩
    · exact ih v hv
    · exact ih v (by rw [← diagonal_writePair hne h1 h2]; exact hv)
  | deleteRoute a b _ h ih =>
    rcases deleteRoute_cases h with ⟨rfl, _⟩ | ⟨m1, m2, h1, h2, hij, hji, _, _, rfl, _⟩
    · exact ih v hv
    · by_cases hab : a = b
      · subst hab
        have := readCell_writePair h1 h2 i i
        rw [show readCell ({ g with adjacencyMatrix := m2 } : TrainRoute).adjacencyMatrix i i
          = readCell m2 i i from rfl] at hv
        rw [this] at hv
        split at hv
        · simpa using hv.symm
        · exact ih v hv
      · exact ih v (by rw [← diagonal_writePair hab h1 h2]; exact hv)

/-- C8 as amended: in every state reached from the constructor by `addNode`, `deleteRoute`, and
`addEdge` and `addRoute` calls whose two indices differ, a diagonal cell `(i, i)` of the
matrix holds `0`; in such a state `addEdge(i, i)` is not rejected and sets the cell, and so
does `addRoute(i, i)` when `i` is a valid index. -/
theorem reachableDistinct_no_self_loop (g : TrainRoute) (hg : ReachableDistinct g) (i v : Int)
    (hv : readCell g.adjacencyMatrix i i = some v) :
    v = 0 ∧
    (∃ g', addEdge g i i = some g' ∧ readCell g'.adjacencyMatrix i i = some 1) ∧
    (0 ≤ i ∧ i < g.nodeCount →
      ∃ g', addRoute g i i = some (g', RouteOutcome.routeAdded i i) ∧
        readCell g'.adjacencyMatrix i i = some 1) := by
  have hv0 : v = 0 := reachableDistinct_diagonal_zero g hg i v hv
  subst hv0
  refine ⟨rfl, ?_, ?_⟩
  · obtain ⟨m1, m2, h1, h2⟩ := writePair_isSome hv hv 1
    refine ⟨{ g with adjacencyMatrix := m2 }, by simp [addEdge, h1, h2], ?_⟩
    show readCell m2 i i = some 1
    rw [readCell_writePair h1 h2]
    simp
  · intro hi
    obtain ⟨m1, m2, h1, h2, h⟩ := addRoute_success hi hi hv hv
    refine ⟨_, h, ?_⟩
    show readCell m2 i i = some 1
    rw [readCell_writePair h1 h2]
    simp

/-! ## Name lookup -/

/-- The loop of `findNodeIndex` started at index `i` over the remaining nodes `rest`: the result
is `-1` when no remaining name matches, and otherwise `i + k` for the first matching
position `k` of `rest`. -/
theorem findNodeIndexFrom_spec (q : List Char) (rest : List (List Char)) (i : Int) :
    (findNodeIndexFrom q rest i = -1 ∧ ∀ name ∈ rest, lowerString name ≠ q) ∨
    (∃ k : Nat, findNodeIndexFrom q rest i = i + k ∧ k < rest.length ∧
      (∃ name, rest[k]? = some name ∧ lowerString name = q) ∧
      ∀ l : Nat, l < k → ∀ name, rest[l]? = some name → lowerString name ≠ q) := by
  induction rest generalizing i with
  | nil => exact Or.inl ⟨rfl, by simp⟩
  | cons name rest ih =>
    unfold findNodeIndexFrom
    by_cases h : lowerString name = q
    · refine Or.inr ⟨0, by simp [h], by simp, ⟨name, by simp, h⟩, ?_⟩
      intro l hl
      omega
    · rw [if_neg h]
      rcases ih (i + 1) with ⟨h1, h2⟩ | ⟨k, h1, h2, ⟨nm, h3, h4⟩, h5⟩
      · refine Or.inl ⟨h1, ?_⟩
        intro nm hnm
        rcases List.mem_cons.1 hnm with rfl | hnm
        · exact h
        · exact h2 nm hnm
      · refine Or.inr ⟨k + 1, ?_, by simpa using h2, ⟨nm, by simpa using h3, h4⟩, ?_⟩
        · rw [h1]; push_cast; ring
        · intro l hl nm' hnm'
          cases l with
          | zero =>
            simp only [List.getElem?_cons_zero, Option.some.injEq] at hnm'
            subst hnm'
            exact h
          | succ l =>
            simp only [List.getElem?_cons_succ] at hnm'
            exact h5 l (by omega) nm' hnm'

/-- C9: `findNodeIndex` returns either `-1`, and then no city name equals the query after
lower-casing both, or an index `i` below `nodeCount` whose name matches while no name at a
smaller index does; so `-1` is returned exactly when no name matches. -/
theorem findNodeIndex_first_match (g : TrainRoute) (nodeName : List Char) :
    ((findNodeIndex g nodeName = -1 ∧
        ∀ name ∈ g.nodes, lowerString name ≠ lowerString nodeName) ∨
      (∃ i : Nat, findNodeIndex g nodeName = i ∧ i < g.nodeCount ∧
        (∃ name, g.nodes[i]? = some name ∧ lowerString name = lowerString nodeName) ∧
        ∀ l : Nat, l < i → ∀ name, g.nodes[l]? = some name →
          lowerString name ≠ lowerString nodeName)) ∧
    (findNodeIndex g nodeName = -1 ↔
      ∀ name ∈ g.nodes, lowerString name ≠ lowerString nodeName) := by
  have h := findNodeIndexFrom_spec (lowerString nodeName) g.nodes 0
  have h' : (findNodeIndex g nodeName = -1 ∧
        ∀ name ∈ g.nodes, lowerString name ≠ lowerString nodeName) ∨
      (∃ i : Nat, findNodeIndex g nodeName = i ∧ i < g.nodeCount ∧
        (∃ name, g.nodes[i]? = some name ∧ lowerString name = lowerString nodeName) ∧
        ∀ l : Nat, l < i → ∀ name, g.nodes[l]? = some name →
          lowerString name ≠ lowerString nodeName) := by
    rcases h with h | ⟨k, h1, h2, h3, h4⟩
    · exact Or.inl h
    · exact Or.inr ⟨k, by rw [findNodeIndex, h1]; simp, h2, h3, h4⟩
  refine ⟨h', ?_⟩
  constructor
  · intro hm
    rcases h' with h | ⟨k, h1, _⟩
    · exact h.2
    · rw [hm] at h1; omega
  · intro hno
    rcases h' with h | ⟨k, _, _, ⟨nm, h3, h4⟩, _⟩
    · exact h.1
    · exact absurd h4 (hno nm (List.mem_iff_getElem?.2 ⟨_, h3⟩))

/-- C10: two queries that are equal after lower-casing resolve to the same index. -/
theorem findNodeIndex_case_insensitive (g : TrainRoute) (a b : List Char)
    (h : lowerString a = lowerString b) : findNodeIndex g a = findNodeIndex g b := by
  unfold findNodeIndex
  rw [h]

theorem findNodeIndex_case_insensitive_witness :
    lowerString "Jakarta".toList = lowerString "JAKARTA".toList ∧
    findNodeIndex (addNode (addNode (create 20) "Kediri".toList) "Jakarta".toList)
        "Jakarta".toList =
      findNodeIndex (addNode (addNode (create 20) "Kediri".toList) "Jakarta".toList)
        "JAKARTA".toList ∧
    findNodeIndex (addNode (addNode (create 20) "Kediri".toList) "Jakarta".toList)
        "jakarta".toList = 1 :=
  ⟨by decide, findNodeIndex_case_insensitive _ _ _ (by decide), by decide⟩

/-! ## All routes: auxiliary facts -/

theorem readCell_of_withinCapacity {g : TrainRoute} (h : WithinCapacity g) {a b : Nat}
    (ha : a < g.nodeCount) (hb : b < g.nodeCount) :
    ∃ v, readCell g.adjacencyMatrix a b = some v := by
  have ha' : a < g.adjacencyMatrix.length := lt_of_lt_of_le ha h.1
  have hrow := h.2 (g.adjacencyMatrix[a]) (List.getElem_mem ha')
  have hb' : b < (g.adjacencyMatrix[a]).length := lt_of_lt_of_le hb hrow
  refine ⟨(g.adjacencyMatrix[a])[b], ?_⟩
  unfold readCell
  rw [vecGet_natCast, List.getElem?_eq_getElem ha']
  show vecGet _ _ = _
  rw [vecGet_natCast, List.getElem?_eq_getElem hb']

theorem count_zero_set_one {vis : List Int} {i : Nat} (h : vis[i]? = some 0) :
    (vis.set i 1).count 0 + 1 = vis.count 0 := by
  induction vis generalizing i with
  | nil => simp at h
  | cons x xs ih =>
    cases i with
    | zero =>
      simp only [List.getElem?_cons_zero, Option.some.injEq] at h
      subst h
      simp [List.count_cons]
    | succ i =>
      simp only [List.getElem?_cons_succ] at h
      have := ih h
      simp only [List.set_cons_succ, List.count_cons]
      omega

theorem set_zero_of_zero {vis : List Int} {i : Nat} (h : vis[i]? = some 0) :
    vis.set i 0 = vis := by
  induction vis generalizing i with
  | nil => simp
  | cons x xs ih =>
    cases i with
    | zero =>
      simp only [List.getElem?_cons_zero, Option.some.injEq] at h
      subst h
      rfl
    | succ i =>
      simp only [List.getElem?_cons_succ] at h
      simp [ih h]

theorem simplePath_self {g : TrainRoute} {t : Nat} (ht : t < g.nodeCount) (p : List Nat) :
    SimplePath g t t p ↔ p = [t] := by
  constructor
  · rintro ⟨hh, hl, hn, _, _⟩
    cases p with
    | nil => simp at hh
    | cons a rest =>
      simp only [List.head?_cons, Option.some.injEq] at hh
      subst hh
      cases rest with
      | nil => rfl
      | cons b rest =>
        exfalso
        have hmem : a ∈ b :: rest := by
          have := List.getLast?_cons_cons (a := a) (b := b) (l := rest)
          rw [this] at hl
          exact List.mem_of_getLast?_eq_some hl
        exact (List.nodup_cons.1 hn).1 hmem
  · rintro rfl
    exact ⟨rfl, rfl, by simp, by simp, by simpa using ht⟩

theorem simplePath_cons {g : TrainRoute} {s t : Nat} (hst : s ≠ t) (p : List Nat) :
    SimplePath g s t p ↔
      ∃ nb q, p = s :: q ∧ s < g.nodeCount ∧ s ∉ q ∧ Adjacent g s nb ∧ SimplePath g nb t q := by
  constructor
  · rintro ⟨hh, hl, hn, hc, hb⟩
    cases p with
    | nil => simp at hh
    | cons a rest =>
      simp only [List.head?_cons, Option.some.injEq] at hh
      subst hh
      cases rest with
      | nil =>
        simp only [List.getLast?_singleton, Option.some.injEq] at hl
        exact absurd hl hst
      | cons b rest =>
        refine ⟨b, b :: rest, rfl, hb a (by simp), (List.nodup_cons.1 hn).1,
          (List.chain'_cons.1 hc).1, rfl, ?_, (List.nodup_cons.1 hn).2,
          (List.chain'_cons.1 hc).2, fun x hx => hb x (List.mem_cons_of_mem _ hx)⟩
        rw [List.getLast?_cons_cons] at hl
        exact hl
  · rintro ⟨nb, q, rfl, hs, hsq, hadj, hh, hl, hn, hc, hb⟩
    cases q with
    | nil => simp at hh
    | cons b rest =>
      simp only [List.head?_cons, Option.some.injEq] at hh
      subst hh
      refine ⟨rfl, ?_, List.nodup_cons.2 ⟨hsq, hn⟩, List.chain'_cons.2 ⟨hadj, hc⟩, ?_⟩
      · rw [List.getLast?_cons_cons]; exact hl
      · intro x hx
        rcases List.mem_cons.1 hx with rfl | hx
        · exact hs
        · exact hb x hx

/-! ## All routes: the search -/

theorem neighborLoop_spec (g : TrainRoute) (hcap : WithinCapacity g) (tgt cur : Nat)
    (recurse : Nat → RoutesState → Option RoutesState) (vis1 : List Int) (path1 : List Nat)
    (hlen : vis1.length = g.nodeCount) (hcur : cur < g.nodeCount)
    (hrec : ∀ nb routes, nb < g.nodeCount → vis1[nb]? = some 0 →
      DfsPost g tgt nb vis1 path1 routes
        (recurse nb { visited := vis1, path := path1, routes := routes })) :
    ∀ L : List Nat, (∀ nb ∈ L, nb < g.nodeCount) → L.Nodup → ∀ routes,
      ∃ news : List (List Nat),
        L.foldlM (neighborStep g recurse cur)
            { visited := vis1, path := path1, routes := routes } =
          some { visited := vis1, path := path1,
                 routes := routes ++ news.map (fun p => path1 ++ p) } ∧
        news.Nodup ∧
        ∀ q, q ∈ news ↔ ∃ nb ∈ L, vis1[nb]? = some 0 ∧ Adjacent g cur nb ∧
          SimplePath g nb tgt q ∧ ∀ x ∈ q, x ≠ nb → vis1[x]? = some 0 := by
  intro L
  induction L with
  | nil =>
    intro _ _ routes
    exact ⟨[], by simp [List.foldlM], List.nodup_nil, by simp⟩
  | cons nb L ih =>
    intro hL hnd routes
    have hnb : nb < g.nodeCount := hL nb (List.mem_cons_self _ _)
    have hL' : ∀ x ∈ L, x < g.nodeCount := fun x hx => hL x (List.mem_cons_of_mem _ hx)
    have hnd' := (List.nodup_cons.1 hnd).2
    have hnbL := (List.nodup_cons.1 hnd).1
    obtain ⟨a, ha⟩ := readCell_of_withinCapacity hcap hcur hnb
    obtain ⟨v, hv⟩ : ∃ v, vis1[nb]? = some v :=
      ⟨_, List.getElem?_eq_getElem (hlen ▸ hnb)⟩
    rw [List.foldlM_cons]
    by_cases hgo : v = 0 ∧ a = 1
    · -- the recursive call is made
      have hv0 : vis1[nb]? = some 0 := by rw [hv, hgo.1]
      obtain ⟨new, hres, hnew, hmem⟩ := hrec nb routes hnb hv0
      have hstep : neighborStep g recurse cur
          { visited := vis1, path := path1, routes := routes } nb =
          some { visited := vis1.set nb 0, path := path1,
                 routes := routes ++ new.map (fun p => path1 ++ p) } := by
        simp only [neighborStep, hv0, ha, hgo.2, if_true]
        exact hres
      rw [set_zero_of_zero hv0] at hstep
      obtain ⟨news, hfold, hnews, hmems⟩ := ih hL' hnd' (routes ++ new.map (fun p => path1 ++ p))
      refine ⟨new ++ news, ?_, ?_, ?_⟩
      · rw [hstep]
        show List.foldlM _ _ L = _
        rw [hfold]
        simp [List.append_assoc]
      · refine List.nodup_append.2 ⟨hnew, hnews, ?_⟩
        intro q hq1 hq2
        obtain ⟨⟨hh, _⟩, _⟩ := (hmem q).1 hq1
        obtain ⟨nb', hnb', _, _, ⟨hh', _⟩, _⟩ := (hmems q).1 hq2
        rw [hh] at hh'
        simp only [Option.some.injEq] at hh'
        subst hh'
        exact hnbL hnb'
      · intro q
        rw [List.mem_append, hmem, hmems]
        constructor
        · rintro (⟨h1, h2⟩ | ⟨nb', hnb', h⟩)
          · exact ⟨nb, List.mem_cons_self _ _, hv0, by rw [Adjacent, ha, hgo.2], h1, h2⟩
          · exact ⟨nb', List.mem_cons_of_mem _ hnb', h⟩
        · rintro ⟨nb', hnb', h⟩
          rcases List.mem_cons.1 hnb' with rfl | hnb'
          · exact Or.inl ⟨h.2.2.1, h.2.2.2⟩
          · exact Or.inr ⟨nb', hnb', h⟩
    · -- the neighbour is skipped
      have hstep : neighborStep g recurse cur
          { visited := vis1, path := path1, routes := routes } nb =
          some { visited := vis1, path := path1, routes := routes } := by
        simp only [neighborStep, hv, ha]
        by_cases h0 : v = 0
        · have : ¬ a = 1 := fun h1 => hgo ⟨h0, h1⟩
          simp [h0, this]
        · simp [h0]
      obtain ⟨news, hfold, hnews, hmems⟩ := ih hL' hnd' routes
      refine ⟨news, ?_, hnews, ?_⟩
      · rw [hstep]
        show List.foldlM _ _ L = _
        rw [hfold]
      · intro q
        rw [hmems]
        constructor
        · rintro ⟨nb', hnb', h⟩
          exact ⟨nb', List.mem_cons_of_mem _ hnb', h⟩
        · rintro ⟨nb', hnb', h⟩
          rcases List.mem_cons.1 hnb' with rfl | hnb'
          · exfalso
            apply hgo
            have h1 := h.1
            rw [hv] at h1
            have h2 := h.2.1
            rw [Adjacent, ha] at h2
            exact ⟨by simpa using h1, by simpa using h2⟩
          · exact ⟨nb', hnb', h⟩


theorem dfsAllRoutes_spec (g : TrainRoute) (hcap : WithinCapacity g) (tgt : Nat) :
    ∀ (fuel cur : Nat) (vis : List Int) (path : List Nat) (routes : List (List Nat)),
      vis.length = g.nodeCount → cur < g.nodeCount → (vis.set cur 1).count 0 < fuel →
      DfsPost g tgt cur vis path routes
        (dfsAllRoutes g fuel cur tgt { visited := vis, path := path, routes := routes }) := by
  intro fuel
  induction fuel with
  | zero => intro cur vis path routes _ _ h; omega
  | succ fuel ih =>
    intro cur vis path routes hlen hcur hfuel
    have hcur' : cur < vis.length := hlen ▸ hcur
    have hlen1 : (vis.set cur 1).length = g.nodeCount := by simpa using hlen
    have hback : ((vis.set cur 1).set cur 0) = vis.set cur 0 := by simp [List.set_set]
    by_cases htgt : cur = tgt
    · subst htgt
      refine ⟨[[cur]], ?_, by simp, ?_⟩
      · simp [dfsAllRoutes, hcur', List.set_set, List.dropLast_concat]
      · intro p
        rw [simplePath_self hcur]
        constructor
        · intro hp
          have hp' : p = [cur] := by simpa using hp
          subst hp'
          exact ⟨rfl, by simp⟩
        · rintro ⟨rfl, _⟩
          simp
    · have hrec : ∀ nb routes', nb < g.nodeCount → (vis.set cur 1)[nb]? = some 0 →
          DfsPost g tgt nb (vis.set cur 1) (path ++ [cur]) routes'
            (dfsAllRoutes g fuel nb tgt
              { visited := vis.set cur 1, path := path ++ [cur], routes := routes' }) := by
        intro nb routes' hnb hfree
        apply ih nb _ _ _ hlen1 hnb
        have := count_zero_set_one hfree
        omega
      obtain ⟨news, hfold, hnews, hmems⟩ :=
        neighborLoop_spec g hcap tgt cur
          (fun neighbor st => dfsAllRoutes g fuel neighbor tgt st)
          (vis.set cur 1) (path ++ [cur]) hlen1 hcur hrec
          (List.range g.nodeCount) (fun nb hnb => List.mem_range.1 hnb)
          (List.nodup_range _) routes
      refine ⟨news.map (fun q => cur :: q), ?_, ?_, ?_⟩
      · simp only [dfsAllRoutes, hcur', if_true, htgt, if_false]
        rw [hfold]
        simp [hcur', List.set_set, List.dropLast_concat, Function.comp_def]
      · exact hnews.map (fun a b h => List.tail_eq_of_cons_eq h)
      · intro p
        rw [simplePath_cons htgt, List.mem_map]
        constructor
        · rintro ⟨q, hq, rfl⟩
          obtain ⟨nb, hnb, hfree, hadj, hsp, hav⟩ := (hmems q).1 hq
          have hcurq : cur ∉ q := by
            intro hmem
            by_cases hc : cur = nb
            · subst hc
              rw [List.getElem?_set_self hcur'] at hfree
              simp at hfree
            · have := hav cur hmem hc
              rw [List.getElem?_set_self hcur'] at this
              simp at this
          refine ⟨⟨nb, q, rfl, hcur, hcurq, hadj, hsp⟩, ?_⟩
          intro x hx hxc
          rcases List.mem_cons.1 hx with rfl | hx
          · exact absurd rfl hxc
          · by_cases hxn : x = nb
            · subst hxn
              rw [List.getElem?_set_ne (fun h => hxc h.symm)] at hfree
              exact hfree
            · have := hav x hx hxn
              rw [List.getElem?_set_ne (fun h => hxc h.symm)] at this
              exact this
        · rintro ⟨⟨nb, q, rfl, _, hcurq, hadj, hsp⟩, hav⟩
          refine ⟨q, (hmems q).2 ⟨nb, ?_, ?_, hadj, hsp, ?_⟩, rfl⟩
          · have : nb ∈ q := by
              have := hsp.1
              cases q with
              | nil => simp at this
              | cons b rest =>
                simp only [List.head?_cons, Option.some.injEq] at this
                subst this
                exact List.mem_cons_self _ _
            exact List.mem_range.2 (hsp.2.2.2.2 nb this)
          · have hmem : nb ∈ q := by
              have := hsp.1
              cases q with
              | nil => simp at this
              | cons b rest =>
                simp only [List.head?_cons, Option.some.injEq] at this
                subst this
                exact List.mem_cons_self _ _
            have hne : nb ≠ cur := fun h => hcurq (h ▸ hmem)
            rw [List.getElem?_set_ne (fun h => hne h.symm)]
            exact hav nb (List.mem_cons_of_mem _ hmem) hne
          · intro x hx _
            have hne : x ≠ cur := fun h => hcurq (h ▸ hx)
            rw [List.getElem?_set_ne (fun h => hne h.symm)]
            exact hav x (List.mem_cons_of_mem _ hx) hne

/-! ## All routes: the query -/

theorem findNodeIndex_lt {g : TrainRoute} {nodeName : List Char} {i : Nat}
    (h : findNodeIndex g nodeName = i) : i < g.nodeCount := by
  rcases findNodeIndexFrom_spec (lowerString nodeName) g.nodes 0 with ⟨h1, _⟩ | ⟨k, h1, h2, _⟩
  · rw [findNodeIndex, h1] at h; omega
  · rw [findNodeIndex, h1] at h
    have : k = i := by omega
    subst this
    exact h2

theorem displayAllRoutes_spec (g : TrainRoute) (hcap : WithinCapacity g) (fuel : Nat)
    (hfuel : g.nodeCount ≤ fuel) (startLocation endLocation : List Char) (start end_ : Nat)
    (hs : findNodeIndex g startLocation = start) (he : findNodeIndex g endLocation = end_) :
    ∃ found, displayAllRoutes g fuel startLocation endLocation =
        some (AllRoutesOutcome.routes found) ∧
      found.Nodup ∧ ∀ p, p ∈ found ↔ SimplePath g start end_ p := by
  have hstart := findNodeIndex_lt hs
  have hcount : ((List.replicate g.nodeCount (0 : Int)).set start 1).count 0 < fuel := by
    have h0 : (List.replicate g.nodeCount (0 : Int))[start]? = some 0 := by
      simp [List.getElem?_replicate, hstart]
    have := count_zero_set_one h0
    simp only [List.count_replicate_self] at this
    omega
  obtain ⟨new, hres, hnew, hmem⟩ :=
    dfsAllRoutes_spec g hcap end_ fuel start (List.replicate g.nodeCount 0) [] []
      (by simp) hstart hcount
  refine ⟨new, ?_, hnew, ?_⟩
  · unfold displayAllRoutes
    simp only [hs, he, Int.toNat_ofNat]
    rw [hres]
    have h1 : ¬ ((start : Int) = -1) := by omega
    have h2 : ¬ ((end_ : Int) = -1) := by omega
    simp [h1, h2]
  · intro p
    rw [hmem]
    constructor
    · exact fun h => h.1
    · intro h
      refine ⟨h, fun x hx _ => ?_⟩
      simp [List.getElem?_replicate, h.2.2.2.2 x hx]

/-- C2: on a graph within capacity, with enough fuel, the all-routes query for two resolved
cities prints a list of routes without duplicates in which every simple path from the start
to the end occurs exactly once. -/
theorem displayAllRoutes_complete_and_duplicate_free (g : TrainRoute) (hcap : WithinCapacity g)
    (fuel : Nat) (hfuel : g.nodeCount ≤ fuel) (startLocation endLocation : List Char)
    (start end_ : Nat)
    (hs : findNodeIndex g startLocation = start) (he : findNodeIndex g endLocation = end_) :
    ∃ found, displayAllRoutes g fuel startLocation endLocation =
        some (AllRoutesOutcome.routes found) ∧
      found.Nodup ∧ ∀ p, SimplePath g start end_ p → found.count p = 1 := by
  obtain ⟨found, h, hnd, hmem⟩ :=
    displayAllRoutes_spec g hcap fuel hfuel startLocation endLocation start end_ hs he
  refine ⟨found, h, hnd, fun p hp => ?_⟩
  have hone := List.count_eq_one_of_mem hnd ((hmem p).2 hp)
  convert hone

theorem displayAllRoutes_complete_and_duplicate_free_witness :
    WithinCapacity triangle ∧
    ∃ found, displayAllRoutes triangle 3 ['a'] ['c'] = some (AllRoutesOutcome.routes found) ∧
      found.Nodup ∧ ∀ p, SimplePath triangle 0 2 p → found.count p = 1 :=
  ⟨by decide, displayAllRoutes_complete_and_duplicate_free triangle (by decide) 3 (by decide)
    ['a'] ['c'] 0 2 (by decide) (by decide)⟩

/-! ## Shortest route: the selection of `minDistance` -/

theorem dAt_of_lt {xs : List Int} {v : Nat} (h : v < xs.length) : xs[v]? = some (dAt xs v) := by
  simp [dAt, List.getElem?_eq_getElem h]

theorem pAt_of_lt {xs : List Int} {v : Nat} (h : v < xs.length) : xs[v]? = some (pAt xs v) := by
  simp [pAt, List.getElem?_eq_getElem h]

theorem vAt_of_lt {xs : List Bool} {v : Nat} (h : v < xs.length) : xs[v]? = some (vAt xs v) := by
  simp [vAt, List.getElem?_eq_getElem h]

theorem dAt_set {xs : List Int} {i v : Nat} (a : Int) (hi : i < xs.length) :
    dAt (xs.set i a) v = if v = i then a else dAt xs v := by
  unfold dAt
  rw [List.getElem?_set]
  by_cases h : i = v
  · subst h; simp [hi]
  · have : ¬ v = i := fun h' => h h'.symm
    simp [h, this]

theorem pAt_set {xs : List Int} {i v : Nat} (a : Int) (hi : i < xs.length) :
    pAt (xs.set i a) v = if v = i then a else pAt xs v := by
  unfold pAt
  rw [List.getElem?_set]
  by_cases h : i = v
  · subst h; simp [hi]
  · have : ¬ v = i := fun h' => h h'.symm
    simp [h, this]

theorem vAt_set {xs : List Bool} {i v : Nat} (a : Bool) (hi : i < xs.length) :
    vAt (xs.set i a) v = if v = i then a else vAt xs v := by
  unfold vAt
  rw [List.getElem?_set]
  by_cases h : i = v
  · subst h; simp [hi]
  · have : ¬ v = i := fun h' => h h'.symm
    simp [h, this]

theorem count_true_set {xs : List Bool} {i : Nat} (h : xs[i]? = some false) :
    (xs.set i true).count true = xs.count true + 1 := by
  induction xs generalizing i with
  | nil => simp at h
  | cons x xs ih =>
    cases i with
    | zero =>
      simp only [List.getElem?_cons_zero, Option.some.injEq] at h
      subst h
      simp [List.count_cons]
    | succ i =>
      simp only [List.getElem?_cons_succ] at h
      have := ih h
      simp only [List.set_cons_succ, List.count_cons]
      omega

theorem exists_false_of_count_lt {xs : List Bool} (h : xs.count true < xs.length) :
    ∃ i : Nat, xs[i]? = some false := by
  induction xs with
  | nil => simp at h
  | cons x xs ih =>
    cases x with
    | false => exact ⟨0, by simp⟩
    | true =>
      simp only [List.count_cons, List.length_cons] at h
      obtain ⟨i, hi⟩ := ih (by simpa using h)
      exact ⟨i + 1, by simpa using hi⟩

theorem unique_false_of_count {xs : List Bool} {i j : Nat} (h : xs.length ≤ xs.count true + 1)
    (hi : xs[i]? = some false) (hj : xs[j]? = some false) : i = j := by
  induction xs generalizing i j with
  | nil => simp at hi
  | cons x xs ih =>
    have hle : xs.count true ≤ xs.length := List.count_le_length _ _
    cases x with
    | false =>
      simp only [List.count_cons, List.length_cons] at h
      have hall : xs.count true = xs.length := by
        simp at h; omega
      have hno : ∀ k : Nat, xs[k]? ≠ some false := by
        intro k hk
        have hmem : false ∈ xs := List.mem_iff_getElem?.2 ⟨k, hk⟩
        have := List.count_eq_length.1 hall false hmem
        simp at this
      cases i with
      | zero =>
        cases j with
        | zero => rfl
        | succ j => exact absurd (by simpa using hj) (hno j)
      | succ i => exact absurd (by simpa using hi) (hno i)
    | true =>
      simp only [List.count_cons, List.length_cons] at h
      cases i with
      | zero => simp at hi
      | succ i =>
        cases j with
        | zero => simp at hj
        | succ j =>
          have := ih (by simpa using h) (by simpa using hi) (by simpa using hj)
          omega

/-- The scan of `minDistance` over the indices below `k`. -/
theorem minDistance_scan (distance : List Int) (visited : List Bool) (n : Nat)
    (hd : distance.length = n) (hv : visited.length = n)
    (hmax : ∀ v < n, dAt distance v ≤ INT_MAX) :
    ∀ k ≤ n, ∃ acc : Int × Int,
      (List.range k).foldlM (minDistanceStep distance visited) (INT_MAX, -1) = some acc ∧
      ((acc.2 = -1 ∧ acc.1 = INT_MAX ∧ ∀ v < k, vAt visited v = true) ∨
       (∃ m < k, acc.2 = m ∧ vAt visited m = false ∧ acc.1 = dAt distance m ∧
          ∀ v < k, vAt visited v = false →
            dAt distance m ≤ dAt distance v ∧ (m < v → dAt distance m < dAt distance v))) := by
  intro k
  induction k with
  | zero =>
    intro _
    exact ⟨(INT_MAX, -1), by simp [List.foldlM], Or.inl ⟨rfl, rfl, by intro v hv; omega⟩⟩
  | succ k ih =>
    intro hk
    obtain ⟨acc, hfold, hacc⟩ := ih (by omega)
    have hkd : k < distance.length := by omega
    have hkv : k < visited.length := by omega
    rw [List.range_succ, List.foldlM_append, hfold]
    simp only [Option.bind_eq_bind, Option.some_bind, List.foldlM_cons, List.foldlM_nil,
      Option.pure_def, Option.bind_some]
    unfold minDistanceStep
    rw [vAt_of_lt hkv]
    cases hvk : vAt visited k with
    | true =>
      refine ⟨acc, rfl, ?_⟩
      rcases hacc with ⟨h1, h2, h3⟩ | ⟨m, hm, h1, h2, h3, h4⟩
      · refine Or.inl ⟨h1, h2, ?_⟩
        intro v hv
        rcases Nat.lt_succ_iff_lt_or_eq.1 hv with h | rfl
        · exact h3 v h
        · exact hvk
      · refine Or.inr ⟨m, by omega, h1, h2, h3, ?_⟩
        intro v hv hvf
        rcases Nat.lt_succ_iff_lt_or_eq.1 hv with h | rfl
        · exact h4 v h hvf
        · rw [hvk] at hvf; cases hvf
    | false =>
      simp only [dAt_of_lt hkd]
      by_cases hle : dAt distance k ≤ acc.1
      · rw [if_pos hle]
        refine ⟨_, rfl, Or.inr ⟨k, by omega, rfl, hvk, rfl, ?_⟩⟩
        intro v hv hvf
        rcases Nat.lt_succ_iff_lt_or_eq.1 hv with h | rfl
        · rcases hacc with ⟨_, _, h3⟩ | ⟨m, hm, _, _, h3, h4⟩
          · rw [h3 v h] at hvf; cases hvf
          · have := (h4 v h hvf).1
            exact ⟨by omega, by omega⟩
        · exact ⟨le_refl _, by omega⟩
      · rw [if_neg hle]
        refine ⟨acc, rfl, ?_⟩
        rcases hacc with ⟨_, h2, _⟩ | ⟨m, hm, h1, h2, h3, h4⟩
        · exact absurd (h2 ▸ hmax k (by omega)) hle
        · refine Or.inr ⟨m, by omega, h1, h2, h3, ?_⟩
          intro v hv hvf
          rcases Nat.lt_succ_iff_lt_or_eq.1 hv with h | rfl
          · exact h4 v h hvf
          · exact ⟨by omega, fun _ => by omega⟩

/-- The result of `minDistance` when some node is unvisited: an unvisited node of least
distance, the last such node in index order. -/
theorem minDistance_spec (g : TrainRoute) (distance : List Int) (visited : List Bool)
    (hd : distance.length = g.nodeCount) (hv : visited.length = g.nodeCount)
    (hmax : ∀ v < g.nodeCount, dAt distance v ≤ INT_MAX)
    (hex : ∃ v < g.nodeCount, vAt visited v = false) :
    ∃ m < g.nodeCount, minDistance g distance visited = some (m : Int) ∧
      vAt visited m = false ∧
      ∀ v < g.nodeCount, vAt visited v = false →
        dAt distance m ≤ dAt distance v ∧ (m < v → dAt distance m < dAt distance v) := by
  obtain ⟨acc, hfold, hacc⟩ :=
    minDistance_scan distance visited g.nodeCount hd hv hmax g.nodeCount (le_refl _)
  rcases hacc with ⟨_, _, h3⟩ | ⟨m, hm, h1, h2, _, h4⟩
  · obtain ⟨v, hv, hvf⟩ := hex
    rw [h3 v hv] at hvf; cases hvf
  · exact ⟨m, hm, by simp [minDistance, hfold, h1], h2, h4⟩

/-! ## Shortest route: the inner loop -/

theorem zeroOne_readCell {g : TrainRoute} (h01 : ZeroOne g) {a b w : Int}
    (h : readCell g.adjacencyMatrix a b = some w) : w = 0 ∨ w = 1 := by
  unfold readCell at h
  cases hrow : vecGet g.adjacencyMatrix a with
  | none => simp [hrow] at h
  | some row =>
    simp only [hrow] at h
    obtain ⟨i, _, hi⟩ := (vecGet_eq_some_iff _ _ _).1 hrow
    obtain ⟨j, _, hj⟩ := (vecGet_eq_some_iff _ _ _).1 h
    exact h01 row (List.mem_iff_getElem?.2 ⟨i, hi⟩) w (List.mem_iff_getElem?.2 ⟨j, hj⟩)

theorem relax_scan (g : TrainRoute) (hcap : WithinCapacity g) (h01 : ZeroOne g) (m : Nat)
    (hm : m < g.nodeCount) (visited : List Bool) (hv : visited.length = g.nodeCount)
    (hvm : vAt visited m = true) (distance parent : List Int)
    (hd : distance.length = g.nodeCount) (hp : parent.length = g.nodeCount)
    (hdm : 0 ≤ dAt distance m ∧ dAt distance m ≤ INT_MAX) :
    ∀ k ≤ g.nodeCount, ∃ dp : List Int × List Int,
      (List.range k).foldlM (relaxStep g m visited) (distance, parent) = some dp ∧
      dp.1.length = g.nodeCount ∧ dp.2.length = g.nodeCount ∧
      ∀ v < g.nodeCount,
        (v < k ∧ Relaxes g m visited distance v →
          dAt dp.1 v = dAt distance m + 1 ∧ pAt dp.2 v = m) ∧
        (¬ (v < k ∧ Relaxes g m visited distance v) →
          dAt dp.1 v = dAt distance v ∧ pAt dp.2 v = pAt parent v) := by
  intro k
  induction k with
  | zero =>
    intro _
    refine ⟨(distance, parent), by simp [List.foldlM], hd, hp, ?_⟩
    intro v _
    exact ⟨fun h => absurd h.1 (by omega), fun _ => ⟨rfl, rfl⟩⟩
  | succ k ih =>
    intro hk
    obtain ⟨dp, hfold, hl1, hl2, hdp⟩ := ih (by omega)
    have hkn : k < g.nodeCount := by omega
    have hkv : k < visited.length := by omega
    -- the entries read by the step
    have hmm : dAt dp.1 m = dAt distance m :=
      ((hdp m hm).2 (fun h => by have := h.2.1; rw [hvm] at this; cases this)).1
    have hkk : dAt dp.1 k = dAt distance k ∧ pAt dp.2 k = pAt parent k :=
      (hdp k hkn).2 (fun h => absurd h.1 (by omega))
    -- every index other than `k` keeps the description it had
    have hkeep : ∀ v < g.nodeCount, v ≠ k →
        (v < k + 1 ∧ Relaxes g m visited distance v →
          dAt dp.1 v = dAt distance m + 1 ∧ pAt dp.2 v = m) ∧
        (¬ (v < k + 1 ∧ Relaxes g m visited distance v) →
          dAt dp.1 v = dAt distance v ∧ pAt dp.2 v = pAt parent v) := by
      intro v hvn hvk
      refine ⟨fun h => (hdp v hvn).1 ⟨by omega, h.2⟩, fun h => (hdp v hvn).2 ?_⟩
      exact fun h' => h ⟨by omega, h'.2⟩
    -- the step leaves the vectors alone when the test fails
    have hskip : ¬ Relaxes g m visited distance k →
        ∀ v < g.nodeCount,
        (v < k + 1 ∧ Relaxes g m visited distance v →
          dAt dp.1 v = dAt distance m + 1 ∧ pAt dp.2 v = m) ∧
        (¬ (v < k + 1 ∧ Relaxes g m visited distance v) →
          dAt dp.1 v = dAt distance v ∧ pAt dp.2 v = pAt parent v) := by
      intro hno v hvn
      by_cases hvk : v = k
      · subst hvk
        exact ⟨fun h => absurd h.2 hno, fun _ => hkk⟩
      · exact hkeep v hvn hvk
    rw [List.range_succ, List.foldlM_append, hfold]
    simp only [Option.bind_eq_bind, Option.some_bind, List.foldlM_cons, List.foldlM_nil,
      Option.pure_def, Option.bind_some]
    unfold relaxStep
    rw [vAt_of_lt hkv]
    cases hvk : vAt visited k with
    | true =>
      exact ⟨dp, rfl, hl1, hl2, hskip (fun h => by have := h.1; rw [hvk] at this; cases this)⟩
    | false =>
      obtain ⟨w, hw⟩ := readCell_of_withinCapacity hcap hm hkn
      simp only [hw]
      rcases zeroOne_readCell h01 hw with rfl | rfl
      · refine ⟨dp, by simp, hl1, hl2, hskip (fun h => ?_)⟩
        have := h.2.1
        rw [Adjacent, hw] at this
        simp at this
      · have hone : ¬ ((1 : Int) = 0) := by decide
        rw [if_neg hone, vecGet_natCast, dAt_of_lt (by omega : m < dp.1.length), hmm]
        simp only []
        by_cases hinf : dAt distance m = INT_MAX
        · rw [if_pos hinf]
          exact ⟨dp, rfl, hl1, hl2, hskip (fun h => h.2.2.1 hinf)⟩
        · rw [if_neg hinf]
          have hrange : ¬ (dAt distance m + 1 < -INT_MAX - 1 ∨ INT_MAX < dAt distance m + 1) := by
            unfold INT_MAX at *
            omega
          rw [if_neg hrange, dAt_of_lt (by omega : k < dp.1.length), hkk.1]
          simp only []
          by_cases hlt : dAt distance m + 1 < dAt distance k
          · rw [if_pos hlt]
            refine ⟨_, rfl, by simpa using hl1, by simpa using hl2, ?_⟩
            intro v hvn
            by_cases hvk' : v = k
            · subst hvk'
              rw [dAt_set _ (by omega), pAt_set _ (by omega), if_pos rfl, if_pos rfl]
              refine ⟨fun _ => ⟨rfl, rfl⟩, fun h => absurd ⟨by omega, hvk, ?_, hinf, hlt⟩ h⟩
              rw [Adjacent, hw]
            · rw [dAt_set _ (by omega), pAt_set _ (by omega)]
              simp only [if_neg hvk']
              exact hkeep v hvn hvk'
          · rw [if_neg hlt]
            exact ⟨dp, rfl, hl1, hl2, hskip (fun h => hlt h.2.2.2)⟩

/-! ## Shortest route: one round -/

/-- One round of the outer loop, described entry by entry: the selected node `m` is an
unvisited node of least distance, it becomes visited, and the entries of the nodes that pass
the test of the inner loop are rewritten. -/
theorem shortestRound_pointwise (g : TrainRoute) (hcap : WithinCapacity g) (h01 : ZeroOne g)
    (start k : Nat) (s : ShortestState) (inv : ShortestInv g start k s) (hk : k < g.nodeCount) :
    ∃ (s' : ShortestState) (m : Nat), shortestRound g s = some s' ∧ m < g.nodeCount ∧
      vAt s.visited m = false ∧
      (∀ v < g.nodeCount, vAt s.visited v = false →
        dAt s.distance m ≤ dAt s.distance v ∧ (m < v → dAt s.distance m < dAt s.distance v)) ∧
      s'.distance.length = g.nodeCount ∧ s'.parent.length = g.nodeCount ∧
      s'.visited = s.visited.set m true ∧
      ∀ v < g.nodeCount,
        (Relaxes g m (s.visited.set m true) s.distance v ∧
          dAt s'.distance v = dAt s.distance m + 1 ∧ pAt s'.parent v = m) ∨
        (¬ Relaxes g m (s.visited.set m true) s.distance v ∧
          dAt s'.distance v = dAt s.distance v ∧ pAt s'.parent v = pAt s.parent v) := by
  have hex : ∃ v < g.nodeCount, vAt s.visited v = false := by
    obtain ⟨i, hi⟩ := @exists_false_of_count_lt s.visited
      (by rw [inv.count, inv.len_v]; exact hk)
    have hlt : i < s.visited.length := (List.getElem?_eq_some_iff.1 hi).1
    exact ⟨i, inv.len_v ▸ hlt, by simp [vAt, hi]⟩
  obtain ⟨m, hm, hmin, hmv, hleast⟩ :=
    minDistance_spec g s.distance s.visited inv.len_d inv.len_v
      (fun v hv => (inv.d_range v hv).2) hex
  have hmlen : m < s.visited.length := by rw [inv.len_v]; exact hm
  have hset : vecSet s.visited (m : Int) true = some (s.visited.set m true) := by
    simp [vecSet, hmlen]
  obtain ⟨dp, hfold, hl1, hl2, hdp⟩ :=
    relax_scan g hcap h01 m hm (s.visited.set m true) (by simpa using inv.len_v)
      (by rw [vAt_set _ hmlen, if_pos rfl]) s.distance s.parent inv.len_d inv.len_p
      (inv.d_range m hm) g.nodeCount (le_refl _)
  refine ⟨{ distance := dp.1, parent := dp.2, visited := s.visited.set m true }, m, ?_, hm, hmv,
    hleast, hl1, hl2, rfl, ?_⟩
  · simp only [shortestRound, hmin, hset, hfold]
  · intro v hv
    by_cases hr : Relaxes g m (s.visited.set m true) s.distance v
    · exact Or.inl ⟨hr, (hdp v hv).1 ⟨hv, hr⟩⟩
    · exact Or.inr ⟨hr, (hdp v hv).2 (fun h => hr h.2)⟩

theorem shortestRound_inv (g : TrainRoute) (hcap : WithinCapacity g) (h01 : ZeroOne g)
    (start k : Nat) (s : ShortestState) (inv : ShortestInv g start k s) (hk : k < g.nodeCount) :
    ∃ s', shortestRound g s = some s' ∧ ShortestInv g start (k + 1) s' := by
  obtain ⟨s', m, hround, hm, hmv, hleast, hl1, hl2, hvis, hpt⟩ :=
    shortestRound_pointwise g hcap h01 start k s inv hk
  have hmlen : m < s.visited.length := by rw [inv.len_v]; exact hm
  -- the visited flags after the round
  have hv' : ∀ v, vAt s'.visited v = if v = m then true else vAt s.visited v := by
    intro v; rw [hvis, vAt_set _ hmlen]
  -- a visited node is not rewritten
  have hkeep : ∀ v < g.nodeCount, vAt s'.visited v = true →
      dAt s'.distance v = dAt s.distance v ∧ pAt s'.parent v = pAt s.parent v := by
    intro v hv hvt
    rcases hpt v hv with ⟨hr, _⟩ | ⟨_, h⟩
    · have := hr.1
      rw [← hvis, hvt] at this
      cases this
    · exact h
  -- distances never grow
  have hle : ∀ v < g.nodeCount, dAt s'.distance v ≤ dAt s.distance v := by
    intro v hv
    rcases hpt v hv with ⟨hr, h, _⟩ | ⟨_, h, _⟩
    · rw [h]; exact le_of_lt hr.2.2.2
    · rw [h]
  have hmkeep := hkeep m hm (by rw [hv', if_pos rfl])
  have hdm := inv.d_range m hm
  refine ⟨s', hround, ?_⟩
  refine
    { len_d := hl1, len_p := hl2, len_v := by rw [hvis]; simpa using inv.len_v,
      count := ?_, d_start := ?_, p_start := ?_, d_range := ?_, parent_ok := ?_,
      relaxed := ?_, ordered := ?_, bounded := ?_ }
  · rw [hvis, count_true_set (by rw [vAt_of_lt hmlen, hmv]), inv.count]
  · by_cases hs : start < g.nodeCount
    · rcases hpt start hs with ⟨hr, _⟩ | ⟨_, h, _⟩
      · have := hr.2.2.2
        rw [inv.d_start] at this
        omega
      · rw [h, inv.d_start]
    · have h1 := inv.d_start
      have : s.distance[start]? = none := by
        rw [List.getElem?_eq_none_iff, inv.len_d]; omega
      rw [dAt, this] at h1
      simp [INT_MAX] at h1
  · by_cases hs : start < g.nodeCount
    · rcases hpt start hs with ⟨hr, _⟩ | ⟨_, _, h⟩
      · have := hr.2.2.2
        rw [inv.d_start] at this
        omega
      · rw [h, inv.p_start]
    · have : s'.parent[start]? = none := by
        rw [List.getElem?_eq_none_iff, hl2]; omega
      rw [pAt, this]; rfl
  · intro v hv
    have hdv := inv.d_range v hv
    rcases hpt v hv with ⟨hr, h, _⟩ | ⟨_, h, _⟩
    · rw [h]
      have := hr.2.2.2
      omega
    · rw [h]; exact hdv
  · intro v hv hvs
    rcases hpt v hv with ⟨hr, h1, h2⟩ | ⟨_, h1, h2⟩
    · refine Or.inr ⟨m, hm, h2, by rw [hv', if_pos rfl], hr.2.1, by rw [h1, hmkeep.1], ?_⟩
      rw [h1]
      have := hr.2.2.2
      have := (inv.d_range v hv).2
      omega
    · rcases inv.parent_ok v hv hvs with ⟨h3, h4⟩ | ⟨u, hu, h3, h4, h5, h6, h7⟩
      · exact Or.inl ⟨by rw [h1, h3], by rw [h2, h4]⟩
      · have hu' : vAt s'.visited u = true := by
          rw [hv']; split
          · rfl
          · exact h4
        exact Or.inr ⟨u, hu, by rw [h2, h3], hu', h5, by rw [h1, (hkeep u hu hu').1, h6],
          by rw [h1]; exact h7⟩
  · intro u hu v hv huv hadj hfin
    have hku := hkeep u hu huv
    rw [hku.1] at hfin ⊢
    by_cases hum : u = m
    · subst hum
      rcases hpt v hv with ⟨_, h, _⟩ | ⟨hr, h, _⟩
      · rw [h]
      · rw [h]
        by_cases hvu : v = u
        · subst hvu; omega
        · cases hvv : vAt s.visited v with
          | true =>
            have := inv.ordered v hv u hu hvv hmv
            omega
          | false =>
            by_contra hcon
            apply hr
            refine ⟨?_, hadj, hfin, by omega⟩
            rw [vAt_set _ hmlen, if_neg hvu, hvv]
    · have huv' : vAt s.visited u = true := by
        rw [hv', if_neg hum] at huv; exact huv
      have := inv.relaxed u hu v hv huv' hadj hfin
      have := hle v hv
      omega
  · intro u hu v hv huv hvv
    have hku := hkeep u hu huv
    rw [hku.1]
    have hvm : v ≠ m := by
      intro h; subst h; rw [hv', if_pos rfl] at hvv; cases hvv
    have hvv' : vAt s.visited v = false := by
      rw [hv', if_neg hvm] at hvv; exact hvv
    have hmin := (hleast v hv hvv').1
    have hum : dAt s.distance u ≤ dAt s.distance m := by
      by_cases hum : u = m
      · subst hum; exact le_refl _
      · have huv' : vAt s.visited u = true := by
          rw [hv', if_neg hum] at huv; exact huv
        exact inv.ordered u hu m hm huv' hmv
    rcases hpt v hv with ⟨_, h, _⟩ | ⟨_, h, _⟩
    · rw [h]; omega
    · rw [h]; omega
  · intro v hv hfin
    have hbm := inv.bounded m hm
    rcases hpt v hv with ⟨hr, h, _⟩ | ⟨_, h, _⟩
    · rw [h]
      have h1 := (hbm hr.2.2.1).1
      refine ⟨by push_cast; omega, fun hvt => ?_⟩
      have := hr.1
      rw [← hvis, hvt] at this
      cases this
    · rw [h] at hfin ⊢
      have hb := inv.bounded v hv hfin
      refine ⟨by push_cast; omega, fun hvt => ?_⟩
      by_cases hvm : v = m
      · subst hvm; push_cast; omega
      · rw [hv', if_neg hvm] at hvt
        have := hb.2 hvt
        push_cast; omega

/-! ## Shortest route: all rounds -/

/-- The vectors of `displayShortestRoute` before the first round. -/
theorem shortestInv_init (g : TrainRoute) (start : Nat) (hs : start < g.nodeCount) :
    ShortestInv g start 0
      { distance := (List.replicate g.nodeCount INT_MAX).set start 0,
        parent := List.replicate g.nodeCount (-1),
        visited := List.replicate g.nodeCount false } := by
  have hlen : start < (List.replicate g.nodeCount INT_MAX).length := by simpa using hs
  have hd : ∀ v < g.nodeCount, dAt ((List.replicate g.nodeCount INT_MAX).set start 0) v =
      if v = start then 0 else INT_MAX := by
    intro v hv
    rw [dAt_set _ hlen]
    split
    · rfl
    · simp [dAt, List.getElem?_replicate, hv]
  have hp : ∀ v < g.nodeCount, pAt (List.replicate g.nodeCount (-1)) v = -1 := by
    intro v hv
    simp [pAt, List.getElem?_replicate, hv]
  have hv : ∀ v < g.nodeCount, vAt (List.replicate g.nodeCount false) v = false := by
    intro v hv
    simp [vAt, List.getElem?_replicate, hv]
  refine
    { len_d := by simp, len_p := by simp, len_v := by simp,
      count := ?_, d_start := ?_, p_start := hp start hs, d_range := ?_, parent_ok := ?_,
      relaxed := ?_, ordered := ?_, bounded := ?_ }
  · simp [List.count_replicate]
  · rw [hd start hs, if_pos rfl]
  · intro v hvn
    rw [hd v hvn]
    split <;> simp [INT_MAX]
  · intro v hvn hvs
    exact Or.inl ⟨by rw [hd v hvn, if_neg hvs], hp v hvn⟩
  · intro u hu v _ huv
    rw [hv u hu] at huv; cases huv
  · intro u hu v _ huv
    rw [hv u hu] at huv; cases huv
  · intro v hvn hfin
    rw [hd v hvn] at hfin ⊢
    split
    · exact ⟨le_refl _, fun h => by rw [hv v hvn] at h; cases h⟩
    · rename_i hne
      rw [if_neg hne] at hfin
      exact absurd rfl hfin

theorem shortestRounds_inv (g : TrainRoute) (hcap : WithinCapacity g) (h01 : ZeroOne g)
    (start : Nat) :
    ∀ (rounds k : Nat) (s : ShortestState), ShortestInv g start k s →
      k + rounds ≤ g.nodeCount →
      ∃ s', shortestRounds g rounds s = some s' ∧ ShortestInv g start (k + rounds) s' := by
  intro rounds
  induction rounds with
  | zero => intro k s inv _; exact ⟨s, rfl, inv⟩
  | succ rounds ih =>
    intro k s inv hk
    obtain ⟨s1, h1, inv1⟩ := shortestRound_inv g hcap h01 start k s inv (by omega)
    obtain ⟨s2, h2, inv2⟩ := ih (k + 1) s1 inv1 (by omega)
    have hidx : k + 1 + rounds = k + (rounds + 1) := by omega
    refine ⟨s2, ?_, hidx ▸ inv2⟩
    simp only [shortestRounds, h1]
    exact h2


/-- After `nodeCount - 1` rounds every edge is relaxed, whether or not its source was
visited. -/
theorem shortestInv_final_edges (g : TrainRoute) (start : Nat) (s : ShortestState)
    (hn : (g.nodeCount : Int) ≤ INT_MAX) (hpos : 0 < g.nodeCount)
    (inv : ShortestInv g start (g.nodeCount - 1) s) :
    ∀ u < g.nodeCount, ∀ v < g.nodeCount, Adjacent g u v → dAt s.distance u ≠ INT_MAX →
      dAt s.distance v ≠ INT_MAX ∧ dAt s.distance v ≤ dAt s.distance u + 1 := by
  intro u hu v hv hadj hfin
  have hru := inv.d_range u hu
  cases huv : vAt s.visited u with
  | true =>
    have h1 := inv.relaxed u hu v hv huv hadj hfin
    have h2 := (inv.bounded u hu hfin).2 huv
    refine ⟨?_, h1⟩
    omega
  | false =>
    cases hvv : vAt s.visited v with
    | true =>
      have := inv.ordered v hv u hu hvv huv
      exact ⟨by omega, by omega⟩
    | false =>
      have hlen : s.visited.length ≤ s.visited.count true + 1 := by
        rw [inv.count, inv.len_v]; omega
      have hu' : s.visited[u]? = some false := by
        rw [vAt_of_lt (by rw [inv.len_v]; exact hu), huv]
      have hv' : s.visited[v]? = some false := by
        rw [vAt_of_lt (by rw [inv.len_v]; exact hv), hvv]
      have := unique_false_of_count hlen hu' hv'
      subst this
      exact ⟨hfin, by omega⟩

/-- When every edge is relaxed, the distance of the last node of a walk is at most the
distance of its first node plus the number of its edges. -/
theorem distance_le_walk (g : TrainRoute) (distance : List Int)
    (hedge : ∀ u < g.nodeCount, ∀ v < g.nodeCount, Adjacent g u v → dAt distance u ≠ INT_MAX →
      dAt distance v ≠ INT_MAX ∧ dAt distance v ≤ dAt distance u + 1) :
    ∀ (w : List Nat) (u v : Nat), Walk g u v w → dAt distance u ≠ INT_MAX →
      dAt distance v ≠ INT_MAX ∧ dAt distance v + 1 ≤ dAt distance u + w.length := by
  intro w
  induction w with
  | nil => intro u v hw; simp [Walk] at hw
  | cons a rest ih =>
    intro u v ⟨hh, hl, hc, hb⟩ hfin
    simp only [List.head?_cons, Option.some.injEq] at hh
    subst hh
    cases rest with
    | nil =>
      simp only [List.getLast?_singleton, Option.some.injEq] at hl
      subst hl
      exact ⟨hfin, by simp⟩
    | cons b rest =>
      have hab := (List.chain'_cons.1 hc).1
      have ha := hb a (by simp)
      have hbn := hb b (by simp)
      obtain ⟨hfb, hle⟩ := hedge a ha b hbn hab hfin
      rw [List.getLast?_cons_cons] at hl
      obtain ⟨hfv, hlv⟩ := ih b v ⟨rfl, hl, (List.chain'_cons.1 hc).2,
        fun x hx => hb x (List.mem_cons_of_mem _ hx)⟩ hfb
      refine ⟨hfv, ?_⟩
      simp only [List.length_cons] at hlv ⊢
      push_cast at hlv ⊢
      omega

/-! ## Shortest route: the parent walk -/

/-- The parent walk from a node of finite distance `l`: it returns `l + 1` cities, from the
node down to `start`, each adjacent to the one before it in the walk. -/
theorem parentWalk_spec (g : TrainRoute) (start k : Nat) (s : ShortestState)
    (inv : ShortestInv g start k s) (hs : start < g.nodeCount) :
    ∀ (l : Nat) (v : Nat), v < g.nodeCount → dAt s.distance v = l →
      dAt s.distance v ≠ INT_MAX → ∀ fuel, l + 1 ≤ fuel →
      ∃ c : List Nat, parentWalk s.parent fuel v = some (c.map Int.ofNat) ∧
        c.length = l + 1 ∧ c.head? = some v ∧ c.getLast? = some start ∧
        List.Chain' (fun a b => Adjacent g b a) c ∧ ∀ x ∈ c, x < g.nodeCount := by
  intro l
  induction l with
  | zero =>
    intro v hv hd _ fuel hfuel
    obtain ⟨fuel, rfl⟩ : ∃ f, fuel = f + 1 := ⟨fuel - 1, by omega⟩
    have hvs : v = start := by
      by_contra hne
      rcases inv.parent_ok v hv hne with ⟨h, _⟩ | ⟨u, hu, _, _, _, h, _⟩
      · rw [hd] at h; simp [INT_MAX] at h
      · have := (inv.d_range u hu).1
        rw [hd] at h
        push_cast at h
        omega
    subst hvs
    refine ⟨[v], ?_, rfl, rfl, rfl, by simp, by simpa using hv⟩
    have hne : ¬ ((v : Int) = -1) := by omega
    have hp : vecGet s.parent (v : Int) = some (-1) := by
      rw [vecGet_natCast, pAt_of_lt (by rw [inv.len_p]; exact hv), inv.p_start]
    have hstop : parentWalk s.parent fuel (-1) = some [] := by
      cases fuel <;> simp [parentWalk]
    simp [parentWalk, hne, hp, hstop]
  | succ l ih =>
    intro v hv hd hfin fuel hfuel
    obtain ⟨fuel, rfl⟩ : ∃ f, fuel = f + 1 := ⟨fuel - 1, by omega⟩
    have hvs : v ≠ start := by
      intro h
      subst h
      rw [inv.d_start] at hd
      push_cast at hd
      omega
    rcases inv.parent_ok v hv hvs with ⟨h, _⟩ | ⟨u, hu, hpu, _, hadj, hdu, _⟩
    · exact absurd h hfin
    · have hul : dAt s.distance u = l := by
        rw [hd] at hdu; push_cast at hdu; omega
      have hufin : dAt s.distance u ≠ INT_MAX := by
        have := (inv.d_range v hv).2
        omega
      obtain ⟨c, hc, hlen, hhead, hlast, hchain, hbound⟩ := ih u hu hul hufin fuel (by omega)
      refine ⟨v :: c, ?_, by simp [hlen], rfl, ?_, ?_, ?_⟩
      · have hne : ¬ ((v : Int) = -1) := by omega
        have hp : vecGet s.parent (v : Int) = some (u : Int) := by
          rw [vecGet_natCast, pAt_of_lt (by rw [inv.len_p]; exact hv), hpu]
        simp [parentWalk, hne, hp, hc]
      · cases c with
        | nil => simp at hhead
        | cons b rest => rw [List.getLast?_cons_cons]; exact hlast
      · cases c with
        | nil => simp
        | cons b rest =>
          simp only [List.head?_cons, Option.some.injEq] at hhead
          subst hhead
          exact List.chain'_cons.2 ⟨hadj, hchain⟩
      · intro x hx
        rcases List.mem_cons.1 hx with rfl | hx
        · exact hv
        · exact hbound x hx

/-! ## Shortest route: the query -/

/-- C1: on a graph within capacity whose cells hold `0` or `1`, for two distinct resolved
cities joined by a walk, the shortest-route query (with fuel for the parent walk) prints a
route that begins with the start, ends with the end, steps along adjacent cities, and has no
more cities than any walk from the start to the end, so its edge count is the breadth-first
distance. -/
theorem displayShortestRoute_is_shortest (g : TrainRoute) (hcap : WithinCapacity g)
    (h01 : ZeroOne g) (hn : (g.nodeCount : Int) ≤ INT_MAX) (fuel : Nat)
    (hfuel : g.nodeCount ≤ fuel) (startLocation endLocation : List Char) (start end_ : Nat)
    (hs : findNodeIndex g startLocation = start) (he : findNodeIndex g endLocation = end_)
    (hne : start ≠ end_) (w : List Nat) (hw : Walk g start end_ w) :
    ∃ cities : List Nat,
      displayShortestRoute g fuel startLocation endLocation =
        some (ShortestOutcome.route (cities.map Int.ofNat)) ∧
      cities.head? = some start ∧ cities.getLast? = some end_ ∧
      List.Chain' (Adjacent g) cities ∧ (∀ x ∈ cities, x < g.nodeCount) ∧
      ∀ w', Walk g start end_ w' → cities.length ≤ w'.length := by
  have hstart := findNodeIndex_lt hs
  have hend := findNodeIndex_lt he
  have hpos : 0 < g.nodeCount := by omega
  obtain ⟨s, hrounds, inv⟩ :=
    shortestRounds_inv g hcap h01 start (g.nodeCount - 1) 0 _ (shortestInv_init g start hstart)
      (by omega)
  rw [Nat.zero_add] at inv
  have hedge := shortestInv_final_edges g start s hn hpos inv
  have hstartfin : dAt s.distance start ≠ INT_MAX := by rw [inv.d_start]; simp [INT_MAX]
  obtain ⟨hfin, -⟩ := distance_le_walk g s.distance hedge w start end_ hw hstartfin
  have hrange := inv.d_range end_ hend
  have hbound := (inv.bounded end_ hend hfin).1
  obtain ⟨l, hl⟩ := Int.eq_ofNat_of_zero_le hrange.1
  obtain ⟨c, hc, hlen, hhead, hlast, hchain, hcb⟩ :=
    parentWalk_spec g start _ s inv hstart l end_ hend hl hfin fuel (by omega)
  refine ⟨c.reverse, ?_, ?_, ?_, ?_, ?_, ?_⟩
  · have h1 : ¬ ((start : Int) = -1) := by omega
    have h2 : ¬ ((end_ : Int) = -1) := by omega
    have hset : vecSet (List.replicate g.nodeCount INT_MAX) (start : Int) 0 =
        some ((List.replicate g.nodeCount INT_MAX).set start 0) := by
      simp [vecSet, hstart]
    have hpe : vecGet s.parent (end_ : Int) = some (pAt s.parent end_) := by
      rw [vecGet_natCast, pAt_of_lt (by rw [inv.len_p]; exact hend)]
    have hpne : ¬ (pAt s.parent end_ = -1) := by
      rcases inv.parent_ok end_ hend (fun h => hne h.symm) with ⟨h, _⟩ | ⟨u, _, hu, _⟩
      · exact absurd h hfin
      · rw [hu]; omega
    simp only [displayShortestRoute, hs, he, h1, h2, hset, hrounds, printShortestRoute, hpe,
      hpne, hc, ne_eq, not_false_eq_true, and_self, if_true, if_false, List.map_reverse]
  · rw [List.head?_reverse]; exact hlast
  · rw [List.getLast?_reverse]; exact hhead
  · rw [List.chain'_reverse]; exact hchain
  · intro x hx; exact hcb x (List.mem_reverse.1 hx)
  · intro w' hw'
    obtain ⟨-, hle⟩ := distance_le_walk g s.distance hedge w' start end_ hw' hstartfin
    rw [inv.d_start, hl] at hle
    rw [List.length_reverse, hlen]
    omega

theorem displayShortestRoute_is_shortest_witness :
    displayShortestRoute line 3 ['a'] ['C'] = some (ShortestOutcome.route [0, 1, 2]) ∧
    ∃ cities : List Nat,
      displayShortestRoute line 3 ['a'] ['C'] =
        some (ShortestOutcome.route (cities.map Int.ofNat)) ∧
      cities.head? = some 0 ∧ cities.getLast? = some 2 ∧
      List.Chain' (Adjacent line) cities ∧ (∀ x ∈ cities, x < line.nodeCount) ∧
      ∀ w', Walk line 0 2 w' → cities.length ≤ w'.length :=
  ⟨by decide, displayShortestRoute_is_shortest line (by decide) (by decide) (by decide) 3
    (by decide) ['a'] ['C'] 0 2 (by decide) (by decide) (by decide) [0, 1, 2]
    ⟨rfl, rfl,
      List.chain'_cons.2 ⟨by decide, List.chain'_cons.2 ⟨by decide, List.chain'_singleton _⟩⟩,
      by decide⟩⟩

/-! ## Further instances -/

theorem zeroOne_writeCell {m m' : List (List Int)} {i j x : Int} (hx : x = 0 ∨ x = 1)
    (h : writeCell m i j x = some m') (h01 : ∀ row ∈ m, ∀ y ∈ row, y = 0 ∨ y = 1) :
    ∀ row ∈ m', ∀ y ∈ row, y = 0 ∨ y = 1 := by
  unfold writeCell at h
  cases hrow : vecGet m i with
  | none => simp [hrow] at h
  | some row =>
    simp only [hrow] at h
    cases hrow' : vecSet row j x with
    | none => simp [hrow'] at h
    | some row' =>
      simp only [hrow'] at h
      obtain ⟨a, _, ha⟩ := (vecGet_eq_some_iff _ _ _).1 hrow
      obtain ⟨b, _, _, rfl⟩ := (vecSet_eq_some_iff _ _ _ _).1 hrow'
      obtain ⟨c, _, _, rfl⟩ := (vecSet_eq_some_iff _ _ _ _).1 h
      intro r hr y hy
      rcases List.mem_or_eq_of_mem_set hr with hr | rfl
      · exact h01 r hr y hy
      · rcases List.mem_or_eq_of_mem_set hy with hy | rfl
        · exact h01 row (List.mem_iff_getElem?.2 ⟨a, ha⟩) y hy
        · exact hx

/-- Every reachable state holds only `0` and `1` in its matrix. -/
theorem reachable_zeroOne (g : TrainRoute) (hg : Reachable g) : ZeroOne g := by
  induction hg with
  | create size =>
    intro row hrow y hy
    rw [create, List.mem_replicate] at hrow
    rw [hrow.2, List.mem_replicate] at hy
    exact Or.inl hy.2
  | addNode cityName _ ih => exact ih
  | addEdge a b _ h ih =>
    obtain ⟨m1, m2, h1, h2, rfl⟩ := addEdge_cases h
    exact zeroOne_writeCell (Or.inr rfl) h2 (zeroOne_writeCell (Or.inr rfl) h1 ih)
  | addRoute a b _ h ih =>
    rcases addRoute_cases h with ⟨rfl, _⟩ | ⟨m1, m2, h1, h2, _, _, _, _, rfl, _⟩
    · exact ih
    · exact zeroOne_writeCell (Or.inr rfl) h2 (zeroOne_writeCell (Or.inr rfl) h1 ih)
  | deleteRoute a b _ h ih =>
    rcases deleteRoute_cases h with ⟨rfl, _⟩ | ⟨m1, m2, h1, h2, _, _, _, _, rfl, _⟩
    · exact ih
    · exact zeroOne_writeCell (Or.inl rfl) h2 (zeroOne_writeCell (Or.inl rfl) h1 ih)

theorem addRoute_sets_both_and_repeat_fails_witness :
    addRoute line 0 2 =
      some ({ nodes := [['A'], ['B'], ['C']],
              adjacencyMatrix := [[0, 1, 1, 0], [1, 0, 1, 0], [1, 1, 0, 0], [0, 0, 0, 0]] },
            RouteOutcome.routeAdded 0 2) ∧
    ∃ g', addRoute line 0 2 = some (g', RouteOutcome.routeAdded 0 2) ∧
      g'.nodes = line.nodes ∧
      readCell g'.adjacencyMatrix 0 2 = some 1 ∧ readCell g'.adjacencyMatrix 2 0 = some 1 ∧
      addRoute g' 0 2 = some (g', RouteOutcome.invalidRoute) :=
  ⟨by decide, addRoute_sets_both_and_repeat_fails line 0 2 (by decide) (by decide) (by decide)
    (by decide)⟩

theorem deleteRoute_clears_both_and_repeat_fails_witness :
    deleteRoute line 0 1 =
      some ({ nodes := [['A'], ['B'], ['C']],
              adjacencyMatrix := [[0, 0, 0, 0], [0, 0, 1, 0], [0, 1, 0, 0], [0, 0, 0, 0]] },
            RouteOutcome.routeDeleted 0 1) ∧
    ∃ g', deleteRoute line 0 1 = some (g', RouteOutcome.routeDeleted 0 1) ∧
      g'.nodes = line.nodes ∧
      readCell g'.adjacencyMatrix 0 1 = some 0 ∧ readCell g'.adjacencyMatrix 1 0 = some 0 ∧
      deleteRoute g' 0 1 = some (g', RouteOutcome.invalidRoute) :=
  ⟨by decide, deleteRoute_clears_both_and_repeat_fails line 0 1 (by decide) (by decide)
    (by decide) (by decide)⟩

theorem addRoute_deleteRoute_roundtrip_witness :
    addRoute line 0 2 = some (triangleInLine, RouteOutcome.routeAdded 0 2) ∧
    ∃ g2, deleteRoute triangleInLine 0 2 = some (g2, RouteOutcome.routeDeleted 0 2) ∧
      g2.nodes = line.nodes ∧
      ∀ a b : Int, readCell g2.adjacencyMatrix a b = readCell line.adjacencyMatrix a b :=
  ⟨by decide, addRoute_deleteRoute_roundtrip line triangleInLine 0 2 (by decide)⟩

theorem reachable_pair : Reachable pair :=
  Reachable.addEdge 0 1 (Reachable.addNode ['B'] (Reachable.addNode ['A'] (Reachable.create 2)))
    (by decide)

theorem reachableDistinct_pair : ReachableDistinct pair :=
  ReachableDistinct.addEdge 0 1 (by decide)
    (ReachableDistinct.addNode ['B'] (ReachableDistinct.addNode ['A'] (ReachableDistinct.create 2)))
    (by decide)

theorem reachable_adjacency_symmetric_witness :
    Reachable pair ∧ readCell pair.adjacencyMatrix 0 1 = some 1 ∧
    readCell pair.adjacencyMatrix 0 1 = readCell pair.adjacencyMatrix 1 0 :=
  ⟨reachable_pair, by decide, reachable_adjacency_symmetric pair reachable_pair 0 1⟩

theorem reachableDistinct_no_self_loop_witness :
    ReachableDistinct pair ∧ readCell pair.adjacencyMatrix 1 1 = some 0 ∧
    addEdge pair 1 1 =
      some { nodes := [['A'], ['B']], adjacencyMatrix := [[0, 1], [1, 1]] } ∧
    ((0 : Int) = 0 ∧
    (∃ g', addEdge pair 1 1 = some g' ∧ readCell g'.adjacencyMatrix 1 1 = some 1) ∧
    (0 ≤ (1 : Int) ∧ (1 : Int) < pair.nodeCount →
      ∃ g', addRoute pair 1 1 = some (g', RouteOutcome.routeAdded 1 1) ∧
        readCell g'.adjacencyMatrix 1 1 = some 1)) :=
  ⟨reachableDistinct_pair, by decide, by decide,
    reachableDistinct_no_self_loop pair reachableDistinct_pair 1 0 (by decide)⟩

/-! ## Capacity -/

theorem writeCell_length {m m' : List (List Int)} {i j x : Int}
    (h : writeCell m i j x = some m') : m'.length = m.length := by
  unfold writeCell at h
  cases hrow : vecGet m i with
  | none => simp [hrow] at h
  | some row =>
    simp only [hrow] at h
    cases hrow' : vecSet row j x with
    | none => simp [hrow'] at h
    | some row' =>
      simp only [hrow'] at h
      obtain ⟨c, _, _, rfl⟩ := (vecSet_eq_some_iff _ _ _ _).1 h
      simp

/-- C11 fails on the code: with capacity one and one city, the count equals the capacity,
yet `addNode` adds the second city; the state is reachable and holds two cities in a matrix
of one row. -/
theorem addNode_beyond_capacity :
    (addNode (create 1) ['A']).nodeCount = (addNode (create 1) ['A']).capacity ∧
    Reachable (addNode (addNode (create 1) ['A']) ['B']) ∧
    (addNode (addNode (create 1) ['A']) ['B']).nodeCount = 2 ∧
    (addNode (addNode (create 1) ['A']) ['B']).capacity = 1 :=
  ⟨by decide, Reachable.addNode _ (Reachable.addNode _ (Reachable.create 1)), by decide,
    by decide⟩

/-- C11 as amended: `addNode` has no capacity check.  In a state reached from
`TrainRoute(size)` with `added` calls of `addNode`, the city count is `added` and the
capacity is still `size`; one more `addNode` raises the count to `added + 1` and leaves the
matrix alone, so the count is within capacity exactly when at most `size` cities were
added. -/
theorem reachableFrom_count_and_capacity (size added : Nat) (g : TrainRoute)
    (hg : ReachableFrom size added g) :
    g.nodeCount = added ∧ g.capacity = size ∧ (g.nodeCount ≤ g.capacity ↔ added ≤ size) ∧
    ∀ cityName, (addNode g cityName).nodeCount = added + 1 ∧
      (addNode g cityName).adjacencyMatrix = g.adjacencyMatrix := by
  have key : g.nodeCount = added ∧ g.capacity = size := by
    induction hg with
    | create => exact ⟨rfl, by simp [create, TrainRoute.capacity]⟩
    | addNode cityName _ ih =>
      exact ⟨by simp [addNode, TrainRoute.nodeCount] at ih ⊢; exact ih.1, ih.2⟩
    | addEdge i j _ h ih =>
      obtain ⟨m1, m2, h1, h2, rfl⟩ := addEdge_cases h
      refine ⟨ih.1, ?_⟩
      show m2.length = size
      rw [writeCell_length h2, writeCell_length h1]
      exact ih.2
    | addRoute i j _ h ih =>
      rcases addRoute_cases h with ⟨rfl, _⟩ | ⟨m1, m2, h1, h2, _, _, _, _, rfl, _⟩
      · exact ih
      · refine ⟨ih.1, ?_⟩
        show m2.length = size
        rw [writeCell_length h2, writeCell_length h1]
        exact ih.2
    | deleteRoute i j _ h ih =>
      rcases deleteRoute_cases h with ⟨rfl, _⟩ | ⟨m1, m2, h1, h2, _, _, _, _, rfl, _⟩
      · exact ih
      · refine ⟨ih.1, ?_⟩
        show m2.length = size
        rw [writeCell_length h2, writeCell_length h1]
        exact ih.2
  refine ⟨key.1, key.2, by rw [key.1, key.2], fun cityName => ⟨?_, rfl⟩⟩
  have := key.1
  simp only [addNode, TrainRoute.nodeCount, List.length_append, List.length_singleton] at this ⊢
  omega

theorem reachableFrom_count_and_capacity_witness :
    ReachableFrom 1 2 (addNode (addNode (create 1) ['A']) ['B']) ∧
    (addNode (addNode (create 1) ['A']) ['B']).nodeCount = 2 ∧
    (addNode (addNode (create 1) ['A']) ['B']).capacity = 1 ∧
    ((addNode (addNode (create 1) ['A']) ['B']).nodeCount ≤
        (addNode (addNode (create 1) ['A']) ['B']).capacity ↔ 2 ≤ 1) ∧
    ∀ cityName, (addNode (addNode (addNode (create 1) ['A']) ['B']) cityName).nodeCount = 2 + 1 ∧
      (addNode (addNode (addNode (create 1) ['A']) ['B']) cityName).adjacencyMatrix =
        (addNode (addNode (create 1) ['A']) ['B']).adjacencyMatrix :=
  ⟨ReachableFrom.addNode _ (ReachableFrom.addNode _ ReachableFrom.create),
    reachableFrom_count_and_capacity 1 2 (addNode (addNode (create 1) ['A']) ['B'])
      (ReachableFrom.addNode _ (ReachableFrom.addNode _ ReachableFrom.create))⟩

/-! ## Indices out of range -/

/-- C13: when `i` or `j` is outside `[0, nodeCount)`, `addRoute(i, j)` and
`deleteRoute(i, j)` both report the invalid route and return the state as it was, whatever
the matrix holds (no cell is read: a matrix without the cell `(i, j)` gives the same
result). -/
theorem route_change_out_of_range (g : TrainRoute) (i j : Int)
    (h : ¬ (0 ≤ i ∧ i < g.nodeCount ∧ 0 ≤ j ∧ j < g.nodeCount)) :
    addRoute g i j = some (g, RouteOutcome.invalidRoute) ∧
    deleteRoute g i j = some (g, RouteOutcome.invalidRoute) ∧
    ∀ m : List (List Int),
      addRoute { g with adjacencyMatrix := m } i j =
        some ({ g with adjacencyMatrix := m }, RouteOutcome.invalidRoute) ∧
      deleteRoute { g with adjacencyMatrix := m } i j =
        some ({ g with adjacencyMatrix := m }, RouteOutcome.invalidRoute) := by
  refine ⟨?_, ?_, fun m => ⟨?_, ?_⟩⟩
  · unfold addRoute; rw [if_neg h]
  · unfold deleteRoute; rw [if_neg h]
  · have h' : ¬ (0 ≤ i ∧ i < ({ g with adjacencyMatrix := m } : TrainRoute).nodeCount ∧
        0 ≤ j ∧ j < ({ g with adjacencyMatrix := m } : TrainRoute).nodeCount) := h
    unfold addRoute; rw [if_neg h']
  · have h' : ¬ (0 ≤ i ∧ i < ({ g with adjacencyMatrix := m } : TrainRoute).nodeCount ∧
        0 ≤ j ∧ j < ({ g with adjacencyMatrix := m } : TrainRoute).nodeCount) := h
    unfold deleteRoute; rw [if_neg h']

theorem route_change_out_of_range_witness :
    ¬ (0 ≤ (-1 : Int) ∧ (-1 : Int) < line.nodeCount ∧ 0 ≤ (3 : Int) ∧ (3 : Int) < line.nodeCount) ∧
    (addRoute line (-1) 3 = some (line, RouteOutcome.invalidRoute) ∧
    deleteRoute line (-1) 3 = some (line, RouteOutcome.invalidRoute) ∧
    ∀ m : List (List Int),
      addRoute { line with adjacencyMatrix := m } (-1) 3 =
        some ({ line with adjacencyMatrix := m }, RouteOutcome.invalidRoute) ∧
      deleteRoute { line with adjacencyMatrix := m } (-1) 3 =
        some ({ line with adjacencyMatrix := m }, RouteOutcome.invalidRoute)) :=
  ⟨by decide, route_change_out_of_range line (-1) 3 (by decide)⟩

/-! ## Names that do not resolve -/

/-- C14: each query reports the invalid location exactly when the start name or the end name
does not resolve; it does so for every amount of fuel and whatever the matrix holds (no
search is run), and the outcome carries no route. -/
theorem queries_invalid_location_iff (g : TrainRoute) (fuel : Nat)
    (startLocation endLocation : List Char) :
    (displayShortestRoute g fuel startLocation endLocation =
        some ShortestOutcome.invalidLocation ↔
      (findNodeIndex g startLocation = -1 ∨ findNodeIndex g endLocation = -1)) ∧
    (displayAllRoutes g fuel startLocation endLocation =
        some AllRoutesOutcome.invalidLocation ↔
      (findNodeIndex g startLocation = -1 ∨ findNodeIndex g endLocation = -1)) := by
  constructor
  · constructor
    · intro h
      by_contra hres
      have hboth : findNodeIndex g startLocation ≠ -1 ∧ findNodeIndex g endLocation ≠ -1 := by
        constructor
        · exact fun h1 => hres (Or.inl h1)
        · exact fun h1 => hres (Or.inr h1)
      unfold displayShortestRoute at h
      simp only [] at h
      rw [if_pos hboth] at h
      split at h
      · cases h
      · split at h
        · cases h
        · unfold printShortestRoute at h
          split at h
          · cases h
          · split at h
            · cases h
            · split at h
              · cases h
              · cases h
    · intro h
      have hboth : ¬ (findNodeIndex g startLocation ≠ -1 ∧ findNodeIndex g endLocation ≠ -1) := by
        rintro ⟨h1, h2⟩
        rcases h with h | h
        · exact h1 h
        · exact h2 h
      unfold displayShortestRoute
      simp only []
      rw [if_neg hboth]
  · constructor
    · intro h
      by_contra hres
      have hboth : findNodeIndex g startLocation ≠ -1 ∧ findNodeIndex g endLocation ≠ -1 := by
        constructor
        · exact fun h1 => hres (Or.inl h1)
        · exact fun h1 => hres (Or.inr h1)
      unfold displayAllRoutes at h
      simp only [] at h
      rw [if_pos hboth] at h
      split at h
      · cases h
      · cases h
    · intro h
      have hboth : ¬ (findNodeIndex g startLocation ≠ -1 ∧ findNodeIndex g endLocation ≠ -1) := by
        rintro ⟨h1, h2⟩
        rcases h with h | h
        · exact h1 h
        · exact h2 h
      unfold displayAllRoutes
      simp only []
      rw [if_neg hboth]

/-! ## The tie-break of `minDistance` -/

/-- C16 fails on the code: with two unvisited nodes at the same distance, `minDistance`
returns index `1`, not the first index `0`. -/
theorem minDistance_tie_takes_last :
    minDistance pair [5, 5] [false, false] = some 1 ∧
    minDistance pair [5, 5] [false, false] ≠ some 0 := by
  decide

/-- C16 as amended: when some node is unvisited, `minDistance` returns an unvisited node of
least distance and, among the unvisited nodes of that distance, the one of greatest index
(the comparison `<=` lets a later node of equal distance replace an earlier one). -/
theorem minDistance_returns_last_minimum (g : TrainRoute) (distance : List Int)
    (visited : List Bool) (hd : distance.length = g.nodeCount)
    (hv : visited.length = g.nodeCount) (hmax : ∀ v < g.nodeCount, dAt distance v ≤ INT_MAX)
    (hex : ∃ v < g.nodeCount, vAt visited v = false) :
    ∃ m < g.nodeCount, minDistance g distance visited = some (m : Int) ∧
      vAt visited m = false ∧
      (∀ v < g.nodeCount, vAt visited v = false → dAt distance m ≤ dAt distance v) ∧
      ∀ v < g.nodeCount, vAt visited v = false → dAt distance v = dAt distance m → v ≤ m := by
  obtain ⟨m, hm, hres, hvm, hleast⟩ := minDistance_spec g distance visited hd hv hmax hex
  refine ⟨m, hm, hres, hvm, fun v hvn hvf => (hleast v hvn hvf).1, ?_⟩
  intro v hvn hvf heq
  by_contra hlt
  have := (hleast v hvn hvf).2 (by omega)
  omega

theorem minDistance_returns_last_minimum_witness :
    minDistance line [0, 1, 1] [true, false, false] = some 2 ∧
    ∃ m < line.nodeCount, minDistance line [0, 1, 1] [true, false, false] = some (m : Int) ∧
      vAt [true, false, false] m = false ∧
      (∀ v < line.nodeCount, vAt [true, false, false] v = false →
        dAt [0, 1, 1] m ≤ dAt [0, 1, 1] v) ∧
      ∀ v < line.nodeCount, vAt [true, false, false] v = false →
        dAt [0, 1, 1] v = dAt [0, 1, 1] m → v ≤ m :=
  ⟨by decide, minDistance_returns_last_minimum line [0, 1, 1] [true, false, false] (by decide)
    (by decide) (by decide) (by decide)⟩

/-! ## Shortest route: the run of the query -/

/-- The query on two resolved names: the rounds succeed, the loop invariant holds after them,
and what is printed is what `printShortestRoute` prints on the final parent vector. -/
theorem displayShortestRoute_run (g : TrainRoute) (hcap : WithinCapacity g) (h01 : ZeroOne g)
    (fuel : Nat) (startLocation endLocation : List Char) (start end_ : Nat)
    (hs : findNodeIndex g startLocation = start) (he : findNodeIndex g endLocation = end_) :
    ∃ s, shortestRounds g (g.nodeCount - 1) (shortestInit g start) = some s ∧
      ShortestInv g start (g.nodeCount - 1) s ∧
      displayShortestRoute g fuel startLocation endLocation =
        printShortestRoute fuel start end_ s.parent := by
  have hstart := findNodeIndex_lt hs
  obtain ⟨s, hrounds, inv⟩ :=
    shortestRounds_inv g hcap h01 start (g.nodeCount - 1) 0 _ (shortestInv_init g start hstart)
      (by omega)
  rw [Nat.zero_add] at inv
  refine ⟨s, hrounds, inv, ?_⟩
  have h1 : ¬ ((start : Int) = -1) := by omega
  have h2 : ¬ ((end_ : Int) = -1) := by omega
  have hset : vecSet (List.replicate g.nodeCount INT_MAX) (start : Int) 0 =
      some ((List.replicate g.nodeCount INT_MAX).set start 0) := by
    simp [vecSet, hstart]
  simp only [displayShortestRoute, hs, he, h1, h2, hset, hrounds, ne_eq, not_false_eq_true,
    and_self, if_true]

/-- C17: on a graph within capacity whose cells hold `0` or `1`, when both names resolve to
the same index the rounds leave `parent[start]` at `-1` and `distance[start]` at `0`, and the
query reports that there is no route, for every amount of fuel. -/
theorem displayShortestRoute_same_city (g : TrainRoute) (hcap : WithinCapacity g)
    (h01 : ZeroOne g) (fuel : Nat) (startLocation endLocation : List Char) (start : Nat)
    (hs : findNodeIndex g startLocation = start) (he : findNodeIndex g endLocation = start) :
    (∃ s, shortestRounds g (g.nodeCount - 1) (shortestInit g start) = some s ∧
      s.parent[start]? = some (-1) ∧ s.distance[start]? = some 0) ∧
    displayShortestRoute g fuel startLocation endLocation =
      some (ShortestOutcome.noRoute start start) := by
  have hstart := findNodeIndex_lt hs
  obtain ⟨s, hrounds, inv, hrun⟩ :=
    displayShortestRoute_run g hcap h01 fuel startLocation endLocation start start hs he
  have hp : s.parent[start]? = some (-1) := by
    rw [pAt_of_lt (by rw [inv.len_p]; exact hstart), inv.p_start]
  have hd : s.distance[start]? = some 0 := by
    rw [dAt_of_lt (by rw [inv.len_d]; exact hstart), inv.d_start]
  refine ⟨⟨s, hrounds, hp, hd⟩, ?_⟩
  rw [hrun]
  simp [printShortestRoute, vecGet_natCast, hp]

theorem displayShortestRoute_same_city_witness :
    displayShortestRoute line 3 ['b'] ['B'] = some (ShortestOutcome.noRoute 1 1) ∧
    ((∃ s, shortestRounds line (line.nodeCount - 1) (shortestInit line 1) = some s ∧
      s.parent[1]? = some (-1) ∧ s.distance[1]? = some 0) ∧
    displayShortestRoute line 3 ['b'] ['B'] = some (ShortestOutcome.noRoute (1 : Nat) (1 : Nat))) :=
  ⟨by decide, displayShortestRoute_same_city line (by decide) (by decide) 3 ['b'] ['B'] 1
    (by decide) (by decide)⟩

/-! ## All routes: more fuel changes nothing -/

theorem foldlM_option_mono {α β : Type} (f f' : β → α → Option β)
    (hff : ∀ b a r, f b a = some r → f' b a = some r) :
    ∀ (l : List α) (b r : β), l.foldlM f b = some r → l.foldlM f' b = some r := by
  intro l
  induction l with
  | nil => intro b r h; simpa [List.foldlM] using h
  | cons a l ih =>
    intro b r h
    rw [List.foldlM_cons] at h ⊢
    cases hfa : f b a with
    | none => rw [hfa] at h; cases h
    | some b1 =>
      rw [hfa] at h
      rw [hff b a b1 hfa]
      exact ih b1 r h

theorem neighborStep_mono (g : TrainRoute) (recurse recurse' : Nat → RoutesState → Option RoutesState)
    (hrec : ∀ nb st r, recurse nb st = some r → recurse' nb st = some r)
    (cur : Nat) (st : RoutesState) (nb : Nat) (r : RoutesState)
    (h : neighborStep g recurse cur st nb = some r) :
    neighborStep g recurse' cur st nb = some r := by
  unfold neighborStep at h ⊢
  cases hv : st.visited[nb]? with
  | none => rw [hv] at h; cases h
  | some seen =>
    rw [hv] at h
    simp only [] at h ⊢
    by_cases h0 : seen = 0
    · rw [if_pos h0] at h ⊢
      cases ha : readCell g.adjacencyMatrix cur nb with
      | none => rw [ha] at h; cases h
      | some a =>
        rw [ha] at h
        simp only [] at h ⊢
        by_cases h1 : a = 1
        · rw [if_pos h1] at h ⊢
          exact hrec nb st r h
        · rw [if_neg h1] at h ⊢
          exact h
    · rw [if_neg h0] at h ⊢
      exact h

theorem dfsAllRoutes_fuel_succ (g : TrainRoute) (tgt : Nat) :
    ∀ (fuel cur : Nat) (s r : RoutesState), dfsAllRoutes g fuel cur tgt s = some r →
      dfsAllRoutes g (fuel + 1) cur tgt s = some r := by
  intro fuel
  induction fuel with
  | zero => intro cur s r h; simp [dfsAllRoutes] at h
  | succ fuel ih =>
    intro cur s r h
    rw [dfsAllRoutes] at h ⊢
    by_cases hlen : cur < s.visited.length
    · rw [if_pos hlen] at h ⊢
      by_cases htgt : cur = tgt
      · simpa only [if_pos htgt] using h
      · simp only [if_neg htgt] at h ⊢
        cases hfold : (List.range g.nodeCount).foldlM
            (neighborStep g (fun neighbor st => dfsAllRoutes g fuel neighbor tgt st) cur)
            { visited := s.visited.set cur 1, path := s.path ++ [cur], routes := s.routes } with
        | none => rw [hfold] at h; cases h
        | some s2 =>
          rw [hfold] at h
          have hfold' := foldlM_option_mono _
            (neighborStep g (fun neighbor st => dfsAllRoutes g (fuel + 1) neighbor tgt st) cur)
            (fun b a r1 hr => neighborStep_mono g _ _ (fun nb st r2 h2 => ih nb st r2 h2) cur b a r1 hr)
            _ _ _ hfold
          rw [hfold']
          exact h
    · rw [if_neg hlen] at h
      cases h

theorem dfsAllRoutes_fuel_le (g : TrainRoute) (tgt cur : Nat) (s r : RoutesState)
    (fuel fuel' : Nat) (hle : fuel ≤ fuel') (h : dfsAllRoutes g fuel cur tgt s = some r) :
    dfsAllRoutes g fuel' cur tgt s = some r := by
  induction hle with
  | refl => exact h
  | step _ ih => exact dfsAllRoutes_fuel_succ g tgt _ cur s r ih

theorem displayAllRoutes_fuel_le (g : TrainRoute) (startLocation endLocation : List Char)
    (out : AllRoutesOutcome) (fuel fuel' : Nat) (hle : fuel ≤ fuel')
    (h : displayAllRoutes g fuel startLocation endLocation = some out) :
    displayAllRoutes g fuel' startLocation endLocation = some out := by
  unfold displayAllRoutes at h ⊢
  simp only [] at h ⊢
  split
  · rename_i hboth
    rw [if_pos hboth] at h
    cases hd : dfsAllRoutes g fuel (findNodeIndex g startLocation).toNat
        (findNodeIndex g endLocation).toNat
        { visited := List.replicate g.nodeCount 0, path := [], routes := [] } with
    | none => rw [hd] at h; cases h
    | some s =>
      rw [hd] at h
      rw [dfsAllRoutes_fuel_le g _ _ _ s fuel fuel' hle hd]
      exact h
  · rename_i hboth
    rw [if_neg hboth] at h
    exact h

/-! ## All routes: the order of the triangle, and termination -/

theorem nodup_length_le {p : List Nat} {n : Nat} (hn : p.Nodup) (hb : ∀ x ∈ p, x < n) :
    p.length ≤ n := by
  have hsub : p ⊆ List.range n := fun x hx => List.mem_range.2 (hb x hx)
  have := (List.subperm_of_subset hn hsub).length_le
  simpa using this

/-- C15 fails on the code: on the triangle built by `addEdge(0, 1)`, `addEdge(1, 2)`,
`addEdge(0, 2)`, the routes from city `0` to city `2` are printed as `[0, 1, 2]` first and
`[0, 2]` second, not in the order `[0, 2]`, `[0, 1, 2]`. -/
theorem triangle_routes_not_direct_first :
    ((addEdge (addNode (addNode (addNode (create 3) ['A']) ['B']) ['C']) 0 1).bind
        (fun g1 => (addEdge g1 1 2).bind (fun g2 => addEdge g2 0 2)) = some triangle) ∧
    displayAllRoutes triangle 3 ['A'] ['C'] =
      some (AllRoutesOutcome.routes [[0, 1, 2], [0, 2]]) ∧
    displayAllRoutes triangle 3 ['A'] ['C'] ≠
      some (AllRoutesOutcome.routes [[0, 2], [0, 1, 2]]) := by
  decide

/-- C15 as amended: on the triangle the routes from city `0` to city `2` are exactly two,
printed in this order: first `[0, 1, 2]`, then `[0, 2]` (neighbour `1` is tried before
neighbour `2`), for every amount of fuel from `3` on. -/
theorem triangle_routes_in_order (fuel : Nat) (hfuel : 3 ≤ fuel) :
    displayAllRoutes triangle fuel ['A'] ['C'] =
      some (AllRoutesOutcome.routes [[0, 1, 2], [0, 2]]) :=
  displayAllRoutes_fuel_le triangle ['A'] ['C'] _ 3 fuel hfuel (by decide)

theorem triangle_routes_in_order_witness :
    (3 ≤ 5) ∧ displayAllRoutes triangle 5 ['A'] ['C'] =
      some (AllRoutesOutcome.routes [[0, 1, 2], [0, 2]]) :=
  ⟨by decide, triangle_routes_in_order 5 (by decide)⟩

/-- C18: on a graph within capacity, a call of `dfsAllRoutes` returns as soon as its fuel
exceeds the number of cities still unmarked once the current one is marked (each nested call
marks one more city), so the recursion is never deeper than the city count: the query for two
resolved cities returns with `nodeCount` units of fuel, more fuel gives the same finite list
of routes, and no route in it has more cities than the city count. -/
theorem displayAllRoutes_terminates (g : TrainRoute) (hcap : WithinCapacity g)
    (startLocation endLocation : List Char) (start end_ : Nat)
    (hs : findNodeIndex g startLocation = start) (he : findNodeIndex g endLocation = end_) :
    (∀ (fuel cur tgt : Nat) (vis : List Int) (path : List Nat) (routes : List (List Nat)),
      vis.length = g.nodeCount → cur < g.nodeCount → (vis.set cur 1).count 0 < fuel →
      ∃ r, dfsAllRoutes g fuel cur tgt { visited := vis, path := path, routes := routes } =
          some r ∧ r.visited = vis.set cur 0 ∧ r.path = path) ∧
    ∃ found, (∀ fuel, g.nodeCount ≤ fuel →
        displayAllRoutes g fuel startLocation endLocation =
          some (AllRoutesOutcome.routes found)) ∧
      ∀ p ∈ found, p.length ≤ g.nodeCount := by
  constructor
  · intro fuel cur tgt vis path routes hlen hcur hfuel
    obtain ⟨new, hres, _, _⟩ := dfsAllRoutes_spec g hcap tgt fuel cur vis path routes hlen hcur hfuel
    exact ⟨_, hres, rfl, rfl⟩
  · obtain ⟨found, hres, _, hmem⟩ :=
      displayAllRoutes_spec g hcap g.nodeCount (le_refl _) startLocation endLocation start end_
        hs he
    refine ⟨found, ?_, ?_⟩
    · intro fuel hfuel
      exact displayAllRoutes_fuel_le g startLocation endLocation _ g.nodeCount fuel hfuel hres
    · intro p hp
      have hsp := (hmem p).1 hp
      exact nodup_length_le hsp.2.2.1 hsp.2.2.2.2

theorem displayAllRoutes_terminates_witness :
    WithinCapacity triangle ∧
    ((∀ (fuel cur tgt : Nat) (vis : List Int) (path : List Nat) (routes : List (List Nat)),
      vis.length = triangle.nodeCount → cur < triangle.nodeCount →
      (vis.set cur 1).count 0 < fuel →
      ∃ r, dfsAllRoutes triangle fuel cur tgt
          { visited := vis, path := path, routes := routes } =
          some r ∧ r.visited = vis.set cur 0 ∧ r.path = path) ∧
    ∃ found, (∀ fuel, triangle.nodeCount ≤ fuel →
        displayAllRoutes triangle fuel ['B'] ['A'] =
          some (AllRoutesOutcome.routes found)) ∧
      ∀ p ∈ found, p.length ≤ triangle.nodeCount) :=
  ⟨by decide, displayAllRoutes_terminates triangle (by decide) ['B'] ['A'] 1 0 (by decide)
    (by decide)⟩

/-! ## Shortest route: the parent walk in full -/

/-- The parent walk from a node of finite distance `l`, in full: besides what
`parentWalk_spec` says, the distances strictly decrease along the walk, none exceeds `l`, and
no city occurs twice. -/
theorem parentWalk_chain (g : TrainRoute) (start k : Nat) (s : ShortestState)
    (inv : ShortestInv g start k s) (hs : start < g.nodeCount) :
    ∀ (l : Nat) (v : Nat), v < g.nodeCount → dAt s.distance v = l →
      dAt s.distance v ≠ INT_MAX → ∀ fuel, l + 1 ≤ fuel →
      ∃ c : List Nat, parentWalk s.parent fuel v = some (c.map Int.ofNat) ∧
        c.length = l + 1 ∧ c.head? = some v ∧ c.getLast? = some start ∧
        List.Chain' (fun a b => Adjacent g b a) c ∧ (∀ x ∈ c, x < g.nodeCount) ∧
        List.Chain' (fun a b => dAt s.distance b < dAt s.distance a) c ∧
        (∀ x ∈ c, dAt s.distance x ≤ l) ∧ c.Nodup := by
  intro l
  induction l with
  | zero =>
    intro v hv hd _ fuel hfuel
    obtain ⟨fuel, rfl⟩ : ∃ f, fuel = f + 1 := ⟨fuel - 1, by omega⟩
    have hvs : v = start := by
      by_contra hne
      rcases inv.parent_ok v hv hne with ⟨h, _⟩ | ⟨u, hu, _, _, _, h, _⟩
      · rw [hd] at h; simp [INT_MAX] at h
      · have := (inv.d_range u hu).1
        rw [hd] at h
        push_cast at h
        omega
    subst hvs
    refine ⟨[v], ?_, rfl, rfl, rfl, by simp, by simpa using hv, by simp, ?_, by simp⟩
    · have hne : ¬ ((v : Int) = -1) := by omega
      have hp : vecGet s.parent (v : Int) = some (-1) := by
        rw [vecGet_natCast, pAt_of_lt (by rw [inv.len_p]; exact hv), inv.p_start]
      have hstop : parentWalk s.parent fuel (-1) = some [] := by
        cases fuel <;> simp [parentWalk]
      simp [parentWalk, hne, hp, hstop]
    · intro x hx
      rw [List.mem_singleton] at hx
      subst hx
      rw [hd]
  | succ l ih =>
    intro v hv hd hfin fuel hfuel
    obtain ⟨fuel, rfl⟩ : ∃ f, fuel = f + 1 := ⟨fuel - 1, by omega⟩
    have hvs : v ≠ start := by
      intro h
      subst h
      rw [inv.d_start] at hd
      push_cast at hd
      omega
    rcases inv.parent_ok v hv hvs with ⟨h, _⟩ | ⟨u, hu, hpu, _, hadj, hdu, _⟩
    · exact absurd h hfin
    · have hul : dAt s.distance u = l := by
        rw [hd] at hdu; push_cast at hdu; omega
      have hufin : dAt s.distance u ≠ INT_MAX := by
        have := (inv.d_range v hv).2
        omega
      obtain ⟨c, hc, hlen, hhead, hlast, hchain, hbound, hdec, hmax, hnd⟩ :=
        ih u hu hul hufin fuel (by omega)
      refine ⟨v :: c, ?_, by simp [hlen], rfl, ?_, ?_, ?_, ?_, ?_, ?_⟩
      · have hne : ¬ ((v : Int) = -1) := by omega
        have hp : vecGet s.parent (v : Int) = some (u : Int) := by
          rw [vecGet_natCast, pAt_of_lt (by rw [inv.len_p]; exact hv), hpu]
        simp [parentWalk, hne, hp, hc]
      · cases c with
        | nil => simp at hhead
        | cons b rest => rw [List.getLast?_cons_cons]; exact hlast
      · cases c with
        | nil => simp
        | cons b rest =>
          simp only [List.head?_cons, Option.some.injEq] at hhead
          subst hhead
          exact List.chain'_cons.2 ⟨hadj, hchain⟩
      · intro x hx
        rcases List.mem_cons.1 hx with rfl | hx
        · exact hv
        · exact hbound x hx
      · cases c with
        | nil => simp
        | cons b rest =>
          simp only [List.head?_cons, Option.some.injEq] at hhead
          subst hhead
          refine List.chain'_cons.2 ⟨?_, hdec⟩
          rw [hd, hul]; push_cast; omega
      · intro x hx
        rcases List.mem_cons.1 hx with rfl | hx
        · rw [hd]
        · have := hmax x hx
          push_cast; omega
      · refine List.nodup_cons.2 ⟨?_, hnd⟩
        intro hmem
        have := hmax v hmem
        rw [hd] at this
        push_cast at this
        omega

/-! ## Shortest route: the two outcomes -/

/-- The query on two distinct resolved cities: either the end has no finite distance, there
is no walk to it and no route is reported, or a route is printed that is a walk from the
start to the end, repeats no city, and has no more cities than any walk. -/
theorem displayShortestRoute_outcome (g : TrainRoute) (hcap : WithinCapacity g)
    (h01 : ZeroOne g) (hn : (g.nodeCount : Int) ≤ INT_MAX) (fuel : Nat)
    (hfuel : g.nodeCount ≤ fuel) (startLocation endLocation : List Char) (start end_ : Nat)
    (hs : findNodeIndex g startLocation = start) (he : findNodeIndex g endLocation = end_)
    (hne : start ≠ end_) :
    (displayShortestRoute g fuel startLocation endLocation =
        some (ShortestOutcome.noRoute start end_) ∧ ¬ ∃ w, Walk g start end_ w) ∨
    (∃ cities : List Nat,
      displayShortestRoute g fuel startLocation endLocation =
        some (ShortestOutcome.route (cities.map Int.ofNat)) ∧
      Walk g start end_ cities ∧ cities.Nodup ∧
      ∀ w', Walk g start end_ w' → cities.length ≤ w'.length) := by
  have hstart := findNodeIndex_lt hs
  have hend := findNodeIndex_lt he
  have hpos : 0 < g.nodeCount := by omega
  obtain ⟨s, _, inv, hrun⟩ :=
    displayShortestRoute_run g hcap h01 fuel startLocation endLocation start end_ hs he
  have hedge := shortestInv_final_edges g start s hn hpos inv
  have hstartfin : dAt s.distance start ≠ INT_MAX := by rw [inv.d_start]; simp [INT_MAX]
  have hpe : vecGet s.parent (end_ : Int) = some (pAt s.parent end_) := by
    rw [vecGet_natCast, pAt_of_lt (by rw [inv.len_p]; exact hend)]
  by_cases hfin : dAt s.distance end_ = INT_MAX
  · left
    constructor
    · have hp : pAt s.parent end_ = -1 := by
        rcases inv.parent_ok end_ hend (fun h => hne h.symm) with ⟨_, h⟩ | ⟨_, _, _, _, _, _, h⟩
        · exact h
        · exact absurd hfin h
      rw [hrun]
      simp [printShortestRoute, hpe, hp]
    · rintro ⟨w, hw⟩
      exact (distance_le_walk g s.distance hedge w start end_ hw hstartfin).1 hfin
  · right
    have hrange := inv.d_range end_ hend
    have hbound := (inv.bounded end_ hend hfin).1
    obtain ⟨l, hl⟩ := Int.eq_ofNat_of_zero_le hrange.1
    obtain ⟨c, hc, hlen, hhead, hlast, hchain, hcb, _, _, hnd⟩ :=
      parentWalk_chain g start _ s inv hstart l end_ hend hl hfin fuel (by omega)
    refine ⟨c.reverse, ?_, ⟨?_, ?_, ?_, ?_⟩, List.nodup_reverse.2 hnd, ?_⟩
    · have hpne : ¬ (pAt s.parent end_ = -1) := by
        rcases inv.parent_ok end_ hend (fun h => hne h.symm) with ⟨h, _⟩ | ⟨u, _, hu, _⟩
        · exact absurd h hfin
        · rw [hu]; omega
      rw [hrun]
      simp only [printShortestRoute, hpe, hpne, hc, if_false, List.map_reverse]
    · rw [List.head?_reverse]; exact hlast
    · rw [List.getLast?_reverse]; exact hhead
    · rw [List.chain'_reverse]; exact hchain
    · intro x hx; exact hcb x (List.mem_reverse.1 hx)
    · intro w' hw'
      obtain ⟨-, hle⟩ := distance_le_walk g s.distance hedge w' start end_ hw' hstartfin
      rw [inv.d_start, hl] at hle
      rw [List.length_reverse, hlen]
      omega

/-! ## Shortest route: no route, safety, and agreement with the search for all routes -/

/-- C12: on a graph within capacity whose cells hold `0` or `1`, for two distinct resolved
cities the shortest-route query returns an outcome, and that outcome is "no route" exactly
when no walk leads from the start to the end. -/
theorem displayShortestRoute_noRoute_iff (g : TrainRoute) (hcap : WithinCapacity g)
    (h01 : ZeroOne g) (hn : (g.nodeCount : Int) ≤ INT_MAX) (fuel : Nat)
    (hfuel : g.nodeCount ≤ fuel) (startLocation endLocation : List Char) (start end_ : Nat)
    (hs : findNodeIndex g startLocation = start) (he : findNodeIndex g endLocation = end_)
    (hne : start ≠ end_) :
    (∃ out, displayShortestRoute g fuel startLocation endLocation = some out) ∧
    (displayShortestRoute g fuel startLocation endLocation =
        some (ShortestOutcome.noRoute start end_) ↔ ¬ ∃ w, Walk g start end_ w) := by
  rcases displayShortestRoute_outcome g hcap h01 hn fuel hfuel startLocation endLocation
      start end_ hs he hne with ⟨hout, hno⟩ | ⟨cities, hout, hw, _, _⟩
  · exact ⟨⟨_, hout⟩, fun _ => hno, fun _ => hout⟩
  · refine ⟨⟨_, hout⟩, fun h => ?_, fun h => absurd ⟨cities, hw⟩ h⟩
    rw [hout] at h
    cases h

theorem displayShortestRoute_noRoute_iff_witness :
    displayShortestRoute island 4 ['A'] ['D'] = some (ShortestOutcome.noRoute 0 3) ∧
    ((∃ out, displayShortestRoute island 4 ['A'] ['D'] = some out) ∧
    (displayShortestRoute island 4 ['A'] ['D'] =
        some (ShortestOutcome.noRoute (0 : Nat) (3 : Nat)) ↔ ¬ ∃ w, Walk island 0 3 w)) :=
  ⟨by decide, displayShortestRoute_noRoute_iff island (by decide) (by decide) (by decide) 4
    (by decide) ['A'] ['D'] 0 3 (by decide) (by decide) (by decide)⟩

/-- C19: on a graph within capacity whose cells hold `0` or `1`, the search from a city
`start` never leaves its vectors or the range of `int`.  Before each of the `nodeCount - 1`
rounds the earlier rounds have succeeded, every distance lies in `[0, INT_MAX]`, and
`minDistance` returns an unvisited index below `nodeCount` (never `-1`), with which the round
succeeds.  After the rounds, from every node whose parent is set the parent walk with
`nodeCount` units of fuel returns at most `nodeCount` cities, none twice, with strictly
decreasing distances, the last one being `start`. -/
theorem shortest_search_is_safe (g : TrainRoute) (hcap : WithinCapacity g) (h01 : ZeroOne g)
    (start : Nat) (hs : start < g.nodeCount) :
    (∀ k, k < g.nodeCount - 1 →
      ∃ s, shortestRounds g k (shortestInit g start) = some s ∧
        (∀ v < g.nodeCount, 0 ≤ dAt s.distance v ∧ dAt s.distance v ≤ INT_MAX) ∧
        (∃ m : Nat, m < g.nodeCount ∧ minDistance g s.distance s.visited = some (m : Int) ∧
          vAt s.visited m = false) ∧
        ∃ s', shortestRound g s = some s') ∧
    ∃ s, shortestRounds g (g.nodeCount - 1) (shortestInit g start) = some s ∧
      ∀ end_ < g.nodeCount, pAt s.parent end_ ≠ -1 →
        ∃ c : List Nat, parentWalk s.parent g.nodeCount end_ = some (c.map Int.ofNat) ∧
          c.length ≤ g.nodeCount ∧ c.Nodup ∧ c.head? = some end_ ∧ c.getLast? = some start ∧
          List.Chain' (fun a b => dAt s.distance b < dAt s.distance a) c := by
  constructor
  · intro k hk
    obtain ⟨s, hrounds, inv⟩ :=
      shortestRounds_inv g hcap h01 start k 0 _ (shortestInv_init g start hs) (by omega)
    rw [Nat.zero_add] at inv
    have hex : ∃ v < g.nodeCount, vAt s.visited v = false := by
      obtain ⟨i, hi⟩ := @exists_false_of_count_lt s.visited
        (by rw [inv.count, inv.len_v]; omega)
      have hlt : i < s.visited.length := (List.getElem?_eq_some_iff.1 hi).1
      exact ⟨i, inv.len_v ▸ hlt, by simp [vAt, hi]⟩
    obtain ⟨m, hm, hmin, hmv, _⟩ :=
      minDistance_spec g s.distance s.visited inv.len_d inv.len_v
        (fun v hv => (inv.d_range v hv).2) hex
    obtain ⟨s', hround, _⟩ := shortestRound_inv g hcap h01 start k s inv (by omega)
    exact ⟨s, hrounds, inv.d_range, ⟨m, hm, hmin, hmv⟩, s', hround⟩
  · obtain ⟨s, hrounds, inv⟩ :=
      shortestRounds_inv g hcap h01 start (g.nodeCount - 1) 0 _ (shortestInv_init g start hs)
        (by omega)
    rw [Nat.zero_add] at inv
    refine ⟨s, hrounds, ?_⟩
    intro end_ hend hp
    have hne : end_ ≠ start := by
      intro h
      subst h
      exact hp inv.p_start
    rcases inv.parent_ok end_ hend hne with ⟨_, h⟩ | ⟨_, _, _, _, _, _, hfin⟩
    · exact absurd h hp
    · have hrange := inv.d_range end_ hend
      have hbound := (inv.bounded end_ hend hfin).1
      obtain ⟨l, hl⟩ := Int.eq_ofNat_of_zero_le hrange.1
      obtain ⟨c, hc, hlen, hhead, hlast, _, _, hdec, _, hnd⟩ :=
        parentWalk_chain g start _ s inv hs l end_ hend hl hfin g.nodeCount (by omega)
      exact ⟨c, hc, by omega, hnd, hhead, hlast, hdec⟩

theorem shortest_search_is_safe_witness :
    WithinCapacity island ∧ ZeroOne island ∧
    ((∀ k, k < island.nodeCount - 1 →
      ∃ s, shortestRounds island k (shortestInit island 0) = some s ∧
        (∀ v < island.nodeCount, 0 ≤ dAt s.distance v ∧ dAt s.distance v ≤ INT_MAX) ∧
        (∃ m : Nat, m < island.nodeCount ∧
          minDistance island s.distance s.visited = some (m : Int) ∧
          vAt s.visited m = false) ∧
        ∃ s', shortestRound island s = some s') ∧
    ∃ s, shortestRounds island (island.nodeCount - 1) (shortestInit island 0) = some s ∧
      ∀ end_ < island.nodeCount, pAt s.parent end_ ≠ -1 →
        ∃ c : List Nat, parentWalk s.parent island.nodeCount end_ = some (c.map Int.ofNat) ∧
          c.length ≤ island.nodeCount ∧ c.Nodup ∧ c.head? = some end_ ∧
          c.getLast? = some 0 ∧
          List.Chain' (fun a b => dAt s.distance b < dAt s.distance a) c) :=
  ⟨by decide, by decide, shortest_search_is_safe island (by decide) (by decide) 0 (by decide)⟩

theorem simplePath_walk {g : TrainRoute} {a b : Nat} {p : List Nat} (h : SimplePath g a b p) :
    Walk g a b p :=
  ⟨h.1, h.2.1, h.2.2.2.1, h.2.2.2.2⟩

/-- C20: on a graph within capacity whose cells hold `0` or `1`, for two distinct resolved
cities and fuel from `nodeCount` on, the search for all routes returns a list `found` such
that either the shortest-route query prints a route, which is a member of `found` and has no
more cities than any member, or it reports "no route" and `found` is empty; so "no route" is
reported exactly when `found` is empty. -/
theorem queries_agree (g : TrainRoute) (hcap : WithinCapacity g)
    (h01 : ZeroOne g) (hn : (g.nodeCount : Int) ≤ INT_MAX) (fuel : Nat)
    (hfuel : g.nodeCount ≤ fuel) (startLocation endLocation : List Char) (start end_ : Nat)
    (hs : findNodeIndex g startLocation = start) (he : findNodeIndex g endLocation = end_)
    (hne : start ≠ end_) :
    ∃ found, displayAllRoutes g fuel startLocation endLocation =
        some (AllRoutesOutcome.routes found) ∧
      ((∃ cities : List Nat,
          displayShortestRoute g fuel startLocation endLocation =
            some (ShortestOutcome.route (cities.map Int.ofNat)) ∧
          cities ∈ found ∧ ∀ p ∈ found, cities.length ≤ p.length) ∨
        (displayShortestRoute g fuel startLocation endLocation =
            some (ShortestOutcome.noRoute start end_) ∧ found = [])) ∧
      (displayShortestRoute g fuel startLocation endLocation =
          some (ShortestOutcome.noRoute start end_) ↔ found = []) := by
  obtain ⟨found, hall, _, hmem⟩ :=
    displayAllRoutes_spec g hcap fuel hfuel startLocation endLocation start end_ hs he
  refine ⟨found, hall, ?_⟩
  rcases displayShortestRoute_outcome g hcap h01 hn fuel hfuel startLocation endLocation
      start end_ hs he hne with ⟨hout, hno⟩ | ⟨cities, hout, hw, hnd, hmin⟩
  · have hempty : found = [] := by
      cases found with
      | nil => rfl
      | cons p rest =>
        exact absurd ⟨p, simplePath_walk ((hmem p).1 (List.mem_cons_self _ _))⟩ hno
    exact ⟨Or.inr ⟨hout, hempty⟩, fun _ => hempty, fun _ => hout⟩
  · have hin : cities ∈ found := (hmem cities).2 ⟨hw.1, hw.2.1, hnd, hw.2.2.1, hw.2.2.2⟩
    refine ⟨Or.inl ⟨cities, hout, hin, fun p hp => hmin p (simplePath_walk ((hmem p).1 hp))⟩,
      fun h => ?_, fun h => ?_⟩
    · rw [hout] at h
      cases h
    · rw [h] at hin
      cases hin

theorem queries_agree_witness :
    displayShortestRoute triangleInLine 3 ['A'] ['C'] = some (ShortestOutcome.route [0, 2]) ∧
    displayAllRoutes triangleInLine 3 ['A'] ['C'] =
      some (AllRoutesOutcome.routes [[0, 1, 2], [0, 2]]) ∧
    ∃ found, displayAllRoutes triangleInLine 3 ['A'] ['C'] =
        some (AllRoutesOutcome.routes found) ∧
      ((∃ cities : List Nat,
          displayShortestRoute triangleInLine 3 ['A'] ['C'] =
            some (ShortestOutcome.route (cities.map Int.ofNat)) ∧
          cities ∈ found ∧ ∀ p ∈ found, cities.length ≤ p.length) ∨
        (displayShortestRoute triangleInLine 3 ['A'] ['C'] =
            some (ShortestOutcome.noRoute (0 : Nat) (2 : Nat)) ∧ found = [])) ∧
      (displayShortestRoute triangleInLine 3 ['A'] ['C'] =
          some (ShortestOutcome.noRoute (0 : Nat) (2 : Nat)) ↔ found = []) :=
  ⟨by decide, by decide, queries_agree triangleInLine (by decide) (by decide) (by decide) 3
    (by decide) ['A'] ['C'] 0 2 (by decide) (by decide) (by decide)⟩

/-! ## Beyond capacity -/

theorem reachable_crowded : Reachable crowded :=
  Reachable.addNode ['B'] (Reachable.addNode ['A'] (Reachable.create 1))

theorem reachable_crowdedEdge : Reachable crowdedEdge :=
  Reachable.addNode ['C'] reachable_pair

/-- C2 fails on the code: `crowdedEdge` is reachable, `[0, 1]` is a simple path from city `0`
to city `1`, yet the search for all routes from `A` to `B` returns no list for any amount of
fuel, because it reads the missing cell `(0, 2)`. -/
theorem allRoutes_beyond_capacity_misses_path :
    Reachable crowdedEdge ∧ findNodeIndex crowdedEdge ['A'] = 0 ∧
    findNodeIndex crowdedEdge ['B'] = 1 ∧ SimplePath crowdedEdge 0 1 [0, 1] ∧
    readCell crowdedEdge.adjacencyMatrix 0 2 = none ∧
    ∀ fuel, displayAllRoutes crowdedEdge fuel ['A'] ['B'] = none := by
  refine ⟨reachable_crowdedEdge, by decide, by decide, ?_, by decide, ?_⟩
  · exact ⟨rfl, rfl, by decide, List.chain'_cons.2 ⟨by decide, List.chain'_singleton _⟩,
      by decide⟩
  · intro fuel
    cases fuel with
    | zero => rfl
    | succ fuel =>
      cases fuel with
      | zero => rfl
      | succ fuel => rfl


theorem no_adjacent_crowded (a b : Nat) : ¬ Adjacent crowded a b := by
  unfold Adjacent crowded readCell
  simp only [vecGet_natCast]
  cases a with
  | zero =>
    cases b with
    | zero => simp
    | succ b => simp
  | succ a => simp

theorem no_walk_crowded : ¬ ∃ w, Walk crowded 0 1 w := by
  rintro ⟨w, hh, hl, hc, _⟩
  cases w with
  | nil => simp at hh
  | cons a rest =>
    cases rest with
    | nil =>
      simp only [List.head?_cons, Option.some.injEq] at hh
      simp only [List.getLast?_singleton, Option.some.injEq] at hl
      omega
    | cons b rest => exact no_adjacent_crowded a b (List.chain'_cons.1 hc).1

/-- C4 fails on the code: in the reachable state `crowded` the indices `0` and `1` are valid
and no route joins them, yet `addRoute(0, 1)` has no result, because its guard reads the
missing cell `(0, 1)`. -/
theorem addRoute_beyond_capacity_undefined :
    Reachable crowded ∧ (0 ≤ (0 : Int) ∧ (0 : Int) < crowded.nodeCount) ∧
    (0 ≤ (1 : Int) ∧ (1 : Int) < crowded.nodeCount) ∧
    readCell crowded.adjacencyMatrix 0 1 ≠ some 1 ∧
    readCell crowded.adjacencyMatrix 1 0 ≠ some 1 ∧
    readCell crowded.adjacencyMatrix 0 1 = none ∧ addRoute crowded 0 1 = none :=
  ⟨reachable_crowded, by decide, by decide, by decide, by decide, by decide, by decide⟩

/-- C12 fails on the code: in the reachable state `crowded` the city `B` was added with no
route, `A` and `B` resolve to the distinct indices `0` and `1` and no walk joins them, yet
the shortest-route query has no outcome for any amount of fuel (it is not "no route"),
because the first round reads the missing cell `(0, 1)`. -/
theorem shortestRoute_beyond_capacity_no_outcome :
    Reachable crowded ∧ findNodeIndex crowded ['A'] = 0 ∧ findNodeIndex crowded ['B'] = 1 ∧
    (¬ ∃ w, Walk crowded 0 1 w) ∧
    ∀ fuel, displayShortestRoute crowded fuel ['A'] ['B'] = none ∧
      displayShortestRoute crowded fuel ['A'] ['B'] ≠ some (ShortestOutcome.noRoute 0 1) := by
  refine ⟨reachable_crowded, by decide, by decide, no_walk_crowded, ?_⟩
  intro fuel
  have h : displayShortestRoute crowded fuel ['A'] ['B'] = none := rfl
  rw [h]
  exact ⟨rfl, by simp⟩

/-- C17 fails on the code: in the reachable state `crowded` the names `A` and `a` resolve to
the same index `0`, yet the shortest-route query has no outcome for any amount of fuel (it is
not "no route"), because the first round reads the missing cell `(0, 1)`. -/
theorem shortestRoute_same_city_beyond_capacity :
    Reachable crowded ∧ findNodeIndex crowded ['A'] = 0 ∧ findNodeIndex crowded ['a'] = 0 ∧
    ∀ fuel, displayShortestRoute crowded fuel ['A'] ['a'] = none ∧
      displayShortestRoute crowded fuel ['A'] ['a'] ≠ some (ShortestOutcome.noRoute 0 0) := by
  refine ⟨reachable_crowded, by decide, by decide, ?_⟩
  intro fuel
  have h : displayShortestRoute crowded fuel ['A'] ['a'] = none := rfl
  rw [h]
  exact ⟨rfl, by simp⟩

/-- C18 fails on the code: in the reachable state `crowded` the search for all routes from
`A` to `B` returns for no amount of fuel, because it reads the missing cell `(0, 1)`. -/
theorem allRoutes_beyond_capacity_never_returns :
    Reachable crowded ∧ findNodeIndex crowded ['A'] = 0 ∧ findNodeIndex crowded ['B'] = 1 ∧
    readCell crowded.adjacencyMatrix 0 1 = none ∧
    ∀ fuel, displayAllRoutes crowded fuel ['A'] ['B'] = none := by
  refine ⟨reachable_crowded, by decide, by decide, by decide, ?_⟩
  intro fuel
  cases fuel with
  | zero => rfl
  | succ fuel => rfl

/-- C19 fails on the code: in the reachable state `crowded` the search from city `0` has one
round; `minDistance` returns the index `0`, and the relaxation then reads the missing cell
`(0, 1)`, so the round fails. -/
theorem shortestRound_beyond_capacity_fails :
    Reachable crowded ∧ crowded.nodeCount - 1 = 1 ∧
    minDistance crowded (shortestInit crowded 0).distance (shortestInit crowded 0).visited =
      some 0 ∧
    readCell crowded.adjacencyMatrix 0 1 = none ∧
    shortestRound crowded (shortestInit crowded 0) = none ∧
    shortestRounds crowded (crowded.nodeCount - 1) (shortestInit crowded 0) = none :=
  ⟨reachable_crowded, by decide, by decide, by decide, by decide, by decide⟩

/-! ## All routes: what is printed is a simple path, on every graph -/

end TrainManagement
